import Mathlib

/-!
Verification of the StarRocks primary-key tablet update engine
(`be/src/storage/tablet_updates.cpp`) and of the vectorized hash-join
build/probe engine (exercised by `be/test/exec/vectorized/join_hash_map_test.cpp`).

The development shallowly embeds the relevant C++ into Lean:
machine integers become `Nat`/`Int` (`size_t` quantities are `Nat`,
`int64_t` scores are `Int`), `std::vector` becomes `List`,
`std::map` becomes a key-sorted association `List`, and the durable
metadata-store side effects become an explicit list of `MetaOp` actions
returned next to the new in-memory state.  Metadata-store writes are
modelled as succeeding (their failure paths leave the in-memory state
unchanged in the source and are out of scope of the claims below).
-/

namespace StarRocks

/-- Status codes returned by the modelled operations, mirroring
`starrocks::Status` constructors used in `tablet_updates.cpp`. -/
inductive Status where
  | ok
  | internalError
  | notFound
  | timedOut
deriving DecidableEq

/-- One entry of the version log (`EditVersionInfo` in `tablet_updates.h`).
`major`/`minor` form the `EditVersion`; `rowsets` is the full rowset-membership
snapshot; `deltas` are the newly added rowset ids of this step. -/
structure EditVersionInfo where
  major : Nat
  minor : Nat
  rowsets : List Nat
  deltas : List Nat
deriving DecidableEq, Inhabited

/-- The per-rowset statistics record (`TabletUpdates::RowsetStats`). -/
structure RowsetStats where
  num_segments : Nat
  num_rows : Nat
  num_dels : Nat
  byte_size : Nat
  compaction_score : Int
deriving DecidableEq, Inhabited

/-- The data a committed rowset object contributes to the update engine:
`Rowset::num_segments()`, `Rowset::num_rows()` and `Rowset::data_disk_size()`. -/
structure RowsetIn where
  num_segments : Nat
  num_rows : Nat
  data_disk_size : Nat
deriving DecidableEq, Inhabited

/-- In-memory state of `TabletUpdates` relevant to the commit path:
the version log `versions` (`_versions`), the applied-version index
(`_apply_version_idx`), the out-of-order buffer `pending` (`_pending_commits`,
a `std::map` kept as a version-sorted association list), the live rowset map
(`_rowsets`), the stats map (`_rowset_stats`), the id/log counters and the
sticky error flag (`_error`). -/
structure TabletState where
  versions : List EditVersionInfo
  apply_version_idx : Nat
  pending : List (Nat × RowsetIn)
  rowsets : List (Nat × RowsetIn)
  rowset_stats : List (Nat × RowsetStats)
  next_rowset_id : Nat
  next_log_id : Nat
  error : Bool
deriving DecidableEq, Inhabited

/-- Durable metadata-store actions performed by the commit path. -/
inductive MetaOp where
  /-- `_ignore_rowset_commit`: `RowsetMetaManager::remove` of the rowset's meta. -/
  | discardRowsetMeta (r : RowsetIn)
  /-- `TabletMetaManager::pending_rowset_commit`: persist a pending rowset keyed by version. -/
  | persistPendingRowset (version : Nat) (r : RowsetIn)
  /-- `TabletMetaManager::rowset_commit`: atomically write the edit-log entry and rowset meta. -/
  | persistCommit (logId : Nat) (version : Nat) (r : RowsetIn)
deriving DecidableEq

/-- `_versions.back()`; the source only evaluates it on a non-empty log. -/
def TabletState.back (st : TabletState) : EditVersionInfo :=
  st.versions.getLastD default

/-- `_versions.back()->version.major()`, the highest committed major version. -/
def TabletState.backMajor (st : TabletState) : Nat :=
  st.back.major

/-- The majors of the version log, in log order. -/
def TabletState.majors (st : TabletState) : List Nat :=
  st.versions.map (·.major)

/-- `TabletUpdates::num_rowsets()`: the rowset count of the last log entry. -/
def TabletState.num_rowsets (st : TabletState) : Nat :=
  if st.versions = [] then 0 else st.back.rowsets.length

/-- `TabletUpdates::data_size()`: sum of `byte_size` over the stats of the
rowsets of the last log entry (rowsets missing a stats record are skipped
and only logged in the source). -/
def TabletState.data_size (st : TabletState) : Nat :=
  (st.back.rowsets.filterMap
    (fun rid => (st.rowset_stats.lookup rid).map (·.byte_size))).sum

/-- `cost_record_write` in `_calc_compaction_score`. -/
def cost_record_write : Int := 1

/-- `cost_record_read` in `_calc_compaction_score`. -/
def cost_record_read : Int := 4

/-- `TabletUpdates::_calc_compaction_score`.  `_compaction_cost_seek` is a
constant defined in the (unsampled) header, taken here as the parameter
`costSeek`.  The source computes `delete_bytes` through `double` arithmetic
truncated back to `int64_t`; it is embedded as the exact floored quotient
`byte_size * num_dels / num_rows`. -/
def calc_compaction_score (costSeek : Int) (stats : RowsetStats) : RowsetStats :=
  if stats.num_rows < 10 then
    { stats with compaction_score := costSeek }
  else
    let delete_bytes : Int := ((stats.byte_size * stats.num_dels) / stats.num_rows : Nat)
    { stats with compaction_score :=
        costSeek + (cost_record_read + cost_record_write) * delete_bytes -
          cost_record_write * stats.byte_size }

/-- The compaction-score formula as the specification words it: the seek cost
constant plus `(read_cost + write_cost)` times the estimated delete bytes
(`byte_size` scaled by the fraction `num_dels / num_rows`) minus `write_cost`
times `byte_size`, with `read_cost = 4` and `write_cost = 1`; fewer than 10
rows get the fixed minimal score. -/
def compaction_score_spec (costSeek : Int) (stats : RowsetStats) : Int :=
  if stats.num_rows < 10 then costSeek
  else
    costSeek + (4 + 1) * ((stats.byte_size * stats.num_dels) / stats.num_rows : Nat)
      - 1 * (stats.byte_size : Int)

/-- Fresh `RowsetStats` for a newly committed rowset
(`_rowset_commit_unlocked`, step "update stats of the newly added rowset"). -/
def new_rowset_stats (costSeek : Int) (r : RowsetIn) : RowsetStats :=
  calc_compaction_score costSeek
    { num_segments := r.num_segments
      num_rows := r.num_rows
      num_dels := 0
      byte_size := r.data_disk_size
      compaction_score := 0 }

/-- `TabletUpdates::_rowset_commit_unlocked`, in-memory effect after the
metadata-store write succeeded: allocate a fresh rowset id, extend the
membership list of the last log entry by it, append the new log entry, record
the rowset object and its fresh stats, and advance the id/log counters. -/
def rowset_commit_unlocked (costSeek : Int) (st : TabletState) (version : Nat)
    (r : RowsetIn) : TabletState :=
  let rowsetid := st.next_rowset_id
  let nrs : List Nat :=
    if st.versions = [] then [rowsetid] else st.back.rowsets ++ [rowsetid]
  let rowsetid_add := max 1 r.num_segments
  { st with
    next_log_id := st.next_log_id + 1
    next_rowset_id := st.next_rowset_id + rowsetid_add
    versions := st.versions ++
      [{ major := version, minor := 0, rowsets := nrs, deltas := [rowsetid] }]
    rowsets := st.rowsets ++ [(rowsetid, r)]
    rowset_stats := st.rowset_stats ++ [(rowsetid, new_rowset_stats costSeek r)] }

/-- `TabletUpdates::_try_commit_pendings_unlocked`, recursion over the
version-sorted pending map: entries at or below the current highest version
are dropped (their rowset meta discarded), an entry at exactly
`current + 1` is committed and erased, and the walk stops at the first gap.
Returns the new state, the entries left in the pending map and the emitted
metadata-store actions. -/
def try_commit_pendings_aux (costSeek : Int) (st : TabletState) :
    List (Nat × RowsetIn) → TabletState × List (Nat × RowsetIn) × List MetaOp
  | [] => (st, [], [])
  | (v, r) :: rest =>
    if v ≤ st.backMajor then
      let (st', rem, ops) := try_commit_pendings_aux costSeek st rest
      (st', rem, MetaOp.discardRowsetMeta r :: ops)
    else if v = st.backMajor + 1 then
      let stc := rowset_commit_unlocked costSeek st v r
      let (st', rem, ops) := try_commit_pendings_aux costSeek stc rest
      (st', rem, MetaOp.persistCommit st.next_log_id v r :: ops)
    else
      (st, (v, r) :: rest, [])

/-- `_try_commit_pendings_unlocked` applied to the state's own pending map. -/
def try_commit_pendings (costSeek : Int) (st : TabletState) :
    TabletState × List MetaOp :=
  let (st', rem, ops) := try_commit_pendings_aux costSeek { st with pending := [] } st.pending
  ({ st' with pending := rem }, ops)

/-- Insertion into the version-sorted pending map (`_pending_commits.emplace`
when the version is not yet present). -/
def insertPending (v : Nat) (r : RowsetIn) :
    List (Nat × RowsetIn) → List (Nat × RowsetIn)
  | [] => [(v, r)]
  | (v', r') :: rest =>
    if v < v' then (v, r) :: (v', r') :: rest
    else (v', r') :: insertPending v r rest

/-- `TabletUpdates::rowset_commit`.  Returns the status, the new in-memory
state and the durable metadata-store actions performed.  The three branches
of the source: duplicate resend (`version <= back`), out-of-order future
commit (buffered in `pending`, bounded at 100), and the synchronous
`version == back + 1` commit followed by draining the pending buffer. -/
def rowset_commit (costSeek : Int) (st : TabletState) (version : Nat)
    (r : RowsetIn) : Status × TabletState × List MetaOp :=
  if st.error then (Status.internalError, st, [])
  else if version ≤ st.backMajor then
    (Status.ok, st, [MetaOp.discardRowsetMeta r])
  else if version > st.backMajor + 1 then
    if st.pending.length > 100 then (Status.internalError, st, [])
    else if (st.pending.lookup version).isSome then
      (Status.ok, st, [MetaOp.discardRowsetMeta r])
    else
      (Status.ok, { st with pending := insertPending version r st.pending },
        [MetaOp.persistPendingRowset version r])
  else
    let st1 := rowset_commit_unlocked costSeek st version r
    let (st2, ops) := try_commit_pendings costSeek st1
    (Status.ok, st2, MetaOp.persistCommit st.next_log_id version r :: ops)

/-- Replay a sequence of `rowset_commit` calls. -/
def run_commits (costSeek : Int) : TabletState → List (Nat × RowsetIn) → TabletState
  | st, [] => st
  | st, (v, r) :: rest => run_commits costSeek (rowset_commit costSeek st v r).2.1 rest

/-- The committed major-version log is strictly increasing with no gaps:
each entry's major is the previous entry's major plus one. -/
def ConsecutiveMajors (l : List Nat) : Prop :=
  l.Chain' (fun a b => b = a + 1)

/-- The pending map's keys are strictly increasing (it models a `std::map`). -/
def PendingSorted (ps : List (Nat × RowsetIn)) : Prop :=
  ps.Pairwise (fun a b => a.1 < b.1)

/-- Well-formedness of the in-memory state: the version log is non-empty
(`_load_from_pb` requires at least one version), its majors are consecutive,
and the pending map is key-sorted. -/
def WF (st : TabletState) : Prop :=
  st.versions ≠ [] ∧ ConsecutiveMajors st.majors ∧ PendingSorted st.pending

instance instDecConsecutiveMajors : (l : List Nat) → Decidable (ConsecutiveMajors l)
  | [] => isTrue List.chain'_nil
  | [a] => isTrue (List.chain'_singleton a)
  | a :: b :: rest =>
    match Nat.decEq b (a + 1), instDecConsecutiveMajors (b :: rest) with
    | isTrue h1, isTrue h2 => isTrue (List.chain'_cons.mpr ⟨h1, h2⟩)
    | isFalse h1, _ => isFalse (fun hc => h1 (List.chain'_cons.mp hc).1)
    | _, isFalse h2 => isFalse (fun hc => h2 (List.chain'_cons.mp hc).2)

instance (ps : List (Nat × RowsetIn)) : Decidable (PendingSorted ps) :=
  inferInstanceAs (Decidable (ps.Pairwise (fun a b : Nat × RowsetIn => a.1 < b.1)))

instance (st : TabletState) : Decidable (WF st) :=
  inferInstanceAs
    (Decidable (st.versions ≠ [] ∧ ConsecutiveMajors st.majors ∧ PendingSorted st.pending))

/-- The maximal run of buffered versions promoted after a commit brought the
highest version to `cur`: keys at or below `cur` are skipped, a key equal to
`cur + 1` is promoted and the scan continues from it, and the first gap stops
the scan.  This follows the specification sentence "drain `pending_commits`
in ascending version order as long as the next pending version is exactly
`current + 1`". -/
def chainFromPending (cur : Nat) : List Nat → List Nat
  | [] => []
  | p :: rest =>
    if p ≤ cur then chainFromPending cur rest
    else if p = cur + 1 then p :: chainFromPending p rest
    else []

/-- The versions appended to the log by one `rowset_commit(v, _)` call when the
highest committed major is `back` and the pending map holds `pendingKeys`:
nothing unless `v = back + 1`, else `v` followed by the promoted run. -/
def promotedVersions (back v : Nat) (pendingKeys : List Nat) : List Nat :=
  if v ≤ back then []
  else if v > back + 1 then []
  else v :: chainFromPending v pendingKeys

/-- Modelled from the spec: `DelVector` (`storage/del_vector.h`, not among the
sampled sources) is "an immutable, versioned bitmap" of deleted row ordinals,
"keyed by (tablet, segment)".  Embedded as a version stamp plus a finite set
of ordinals. -/
structure DelVector where
  version : Nat
  dels : Finset Nat
deriving DecidableEq

/-- `DelVector::cardinality()`: the number of deleted ordinals. -/
def DelVector.cardinality (d : DelVector) : Nat := d.dels.card

/-- Modelled from the spec: `DelVector::add_dels_as_new_version` — "a new
delete vector is derived from the previous one by adding a delta set of
deleted ordinals and stamping it with the new version", i.e. the union with
the new deletions. -/
def add_dels_as_new_version (old : DelVector) (adds : Finset Nat) (v : Nat) : DelVector :=
  { version := v, dels := old.dels ∪ adds }

/-- Possible outcomes of one delete-vector merge inside
`_apply_rowset_commit`. -/
inductive ApplyOutcome where
  /-- The merge succeeded and produced the new delete vector. -/
  | ok (newVec : DelVector)
  /-- `LOG(FATAL)`: the process aborts immediately. -/
  | fatal
  /-- `_set_error()`: the sticky tablet error state. -/
  | stickyError
deriving DecidableEq

/-- The delete-vector merge step of `TabletUpdates::_apply_rowset_commit` for
a segment that already has a persisted delete vector (the `else` branch of
step 3): fetch the latest delvec (assumed found), union in the newly deleted
ordinals as a new version, and check
`cur_old + cur_add == cur_new`; a violation executes `LOG(FATAL)` — a process
abort, embedded as the `fatal` outcome (`_set_error` is used on other
failure paths of the apply step, not on this one). -/
def apply_existing_segment_delvec (old : DelVector) (adds : Finset Nat) (v : Nat) :
    ApplyOutcome :=
  let nw := add_dels_as_new_version old adds v
  if old.cardinality + adds.card ≠ nw.cardinality then ApplyOutcome.fatal
  else ApplyOutcome.ok nw

/-- Strict lexicographic comparison of `EditVersion` pairs `(major, minor)`
(`EditVersion::operator<`). -/
def evLTb (a b : Nat × Nat) : Bool :=
  decide (a.1 < b.1) || (decide (a.1 = b.1) && decide (a.2 < b.2))

/-- What the waiter inside `_wait_for_version` observes after one
condition-variable wake-up: the error flag, the applied version
(`_versions[_apply_version_idx]->version`), the highest committed version
(`_versions.back()->version`), the largest pending version
(`_pending_commits.rbegin()->first`, `none` when the map is empty) and the
elapsed time `now - wait_start` in milliseconds. -/
structure WaitObs where
  errorFlag : Bool
  applied : Nat × Nat
  backVer : Nat × Nat
  pendingMax : Option Nat
  elapsedMs : Int
deriving DecidableEq

/-- The give-up condition of `_wait_for_version`:
`_versions.back()->version < version && (_pending_commits.empty() ||
_pending_commits.rbegin()->first < version.major())` — the requested version
is beyond everything committed or pending. -/
def beyondCommittedAndPending (o : WaitObs) (version : Nat × Nat) : Bool :=
  evLTb o.backVer version &&
    (match o.pendingMax with
     | none => true
     | some pm => decide (pm < version.1))

/-- The wake-up loop of `TabletUpdates::_wait_for_version`, driven by the
observation trace: on error break (the source then returns OK), on the
applied version having caught up return OK, on the give-up condition return
`InternalError`, on the elapsed time exceeding the bound return `TimedOut`,
else wait again.  `none` means the waiter is still blocked when the trace
ends. -/
def wait_for_version_loop (version : Nat × Nat) (timeout_ms : Int) :
    List WaitObs → Option Status
  | [] => none
  | o :: rest =>
    if o.errorFlag then some Status.ok
    else if !(evLTb o.applied version) then some Status.ok
    else if beyondCommittedAndPending o version then some Status.internalError
    else if timeout_ms < o.elapsedMs then some Status.timedOut
    else wait_for_version_loop version timeout_ms rest

/-- `TabletUpdates::_wait_for_version`: immediate return if the applied
version observed at entry is already at or above the requested one, else the
wake-up loop. -/
def wait_for_version (version : Nat × Nat) (timeout_ms : Int)
    (initApplied : Nat × Nat) (trace : List WaitObs) : Option Status :=
  if !(evLTb initApplied version) then some Status.ok
  else wait_for_version_loop version timeout_ms trace

/-- The downward scan of `get_applied_rowsets`: starting at
`_apply_version_idx` and walking toward index 0, the first log entry whose
major equals the requested version. -/
def search_applied (versions : List EditVersionInfo) (applyIdx : Nat)
    (version : Nat) : Option EditVersionInfo :=
  ((versions.take (applyIdx + 1)).reverse).find? (fun e => e.major == version)

/-- Mapping the found entry's rowset ids through `_rowsets`; a missing rowset
makes `get_applied_rowsets` fail with `NotFound`. -/
def gather_rowsets (rowsetMap : List (Nat × RowsetIn)) (ids : List Nat) :
    Option (List RowsetIn) :=
  ids.mapM (fun rid => rowsetMap.lookup rid)

/-- `TabletUpdates::get_applied_rowsets`: refuse error-state tablets, wait —
bounded at 60000 ms as at the source call site — until the applied version
reaches the requested one, then scan the log downward from the applied index
for the entry with that exact major version and map its rowset ids through
`_rowsets`.  `stf` is the state snapshot observed after the wait and
`initApplied` the applied version observed by the initial check; the result
is `none` while the waiter is still blocked. -/
def get_applied_rowsets (stf : TabletState) (version : Nat)
    (initApplied : Nat × Nat) (trace : List WaitObs) :
    Option (Status × List RowsetIn) :=
  if stf.error then some (Status.internalError, [])
  else
    match wait_for_version (version, 0) 60000 initApplied trace with
    | none => none
    | some Status.ok =>
      match search_applied stf.versions stf.apply_version_idx version with
      | some e =>
        match gather_rowsets stf.rowsets e.rowsets with
        | some rs => some (Status.ok, rs)
        | none => some (Status.notFound, [])
      | none => some (Status.notFound, [])
    | some s => some (s, [])

/-- `compaction_result_bytes_threashold` (the source's spelling). -/
def compaction_result_bytes_threashold : Nat := 1000000000

/-- `compaction_result_rows_threashold`. -/
def compaction_result_rows_threashold : Nat := 10000000

/-- An exact fraction with positive denominator: the embedding of the
source's `float score_per_row = compaction_score / (num_rows - num_dels)`.
Comparisons are by cross multiplication, which agrees with real-number
comparison of the quotients. -/
structure Score where
  num : Int
  den : ℕ+
deriving DecidableEq

/-- `a ≤ b` on score fractions, by cross multiplication. -/
def Score.fle (a b : Score) : Prop :=
  a.num * ((b.den : Nat) : Int) ≤ b.num * ((a.den : Nat) : Int)

/-- `a < b` on score fractions, by cross multiplication. -/
def Score.flt (a b : Score) : Prop :=
  a.num * ((b.den : Nat) : Int) < b.num * ((a.den : Nat) : Int)

instance : DecidableRel Score.fle := fun _ _ =>
  inferInstanceAs (Decidable (_ ≤ _))

instance : DecidableRel Score.flt := fun _ _ =>
  inferInstanceAs (Decidable (_ < _))

/-- `CompactionEntry` (tablet_updates.cpp): a non-dead compaction candidate. -/
structure CompactionEntry where
  score_per_row : Score
  rowsetid : Nat
  num_rows : Nat
  num_dels : Nat
  bytes : Nat
deriving DecidableEq

/-- The per-live-row score `compaction_score / (num_rows - num_dels)` the
candidates are ranked by.  Candidates always satisfy
`num_dels < num_rows` (fully dead rowsets are filtered out before this is
evaluated and `num_dels <= num_rows` is a documented invariant), so the
denominator guard `max 1` never changes a reachable value. -/
def score_per_live_row (s : RowsetStats) : Score :=
  ⟨s.compaction_score,
   ⟨max 1 (s.num_rows - s.num_dels), Nat.lt_of_lt_of_le Nat.zero_lt_one (Nat.le_max_left _ _)⟩⟩

/-- The candidate-collection loop of `TabletUpdates::compaction` over the
rowsets of the current applied version: rowsets without a stats record or
with non-positive compaction score are skipped, fully dead rowsets
(`num_rows == num_dels`) go straight into the inputs, and the rest become
`CompactionEntry` candidates. -/
def collect_candidates (stats : List (Nat × RowsetStats)) :
    List Nat → List Nat × List CompactionEntry
  | [] => ([], [])
  | rid :: rest =>
    let (dead, cands) := collect_candidates stats rest
    match stats.lookup rid with
    | none => (dead, cands)
    | some s =>
      if 0 < s.compaction_score then
        if s.num_rows = s.num_dels then (rid :: dead, cands)
        else
          (dead,
            { score_per_row := score_per_live_row s
              rowsetid := rid
              num_rows := s.num_rows
              num_dels := s.num_dels
              bytes := s.byte_size } :: cands)
      else (dead, cands)

/-- `CompactionEntry::operator<` compares by strictly greater `score_per_row`,
so `std::sort` produces descending scores with ties in unspecified order.
The embedding uses a stable insertion sort under the non-strict descending
relation `entryGE` — a deterministic refinement of the source's unspecified
tie-breaking. -/
def entryGE (a b : CompactionEntry) : Prop :=
  Score.fle b.score_per_row a.score_per_row

instance : DecidableRel entryGE := fun a b =>
  inferInstanceAs (Decidable (Score.fle b.score_per_row a.score_per_row))

instance : IsTotal CompactionEntry entryGE :=
  ⟨fun _ _ => le_total _ _⟩

instance : IsTrans CompactionEntry entryGE :=
  ⟨fun x y z hxy hyz => by
    unfold entryGE Score.fle at hxy hyz ⊢
    set a := z.score_per_row
    set b := y.score_per_row
    set c := x.score_per_row
    have hb : (0 : Int) < ((b.den : Nat) : Int) := by exact_mod_cast b.den.pos
    have ha : (0 : Int) ≤ ((a.den : Nat) : Int) := by positivity
    have hc : (0 : Int) ≤ ((c.den : Nat) : Int) := by positivity
    have h1 := mul_le_mul_of_nonneg_right hyz hc
    have h2 := mul_le_mul_of_nonneg_right hxy ha
    have h3 : a.num * ((c.den : Nat) : Int) * ((b.den : Nat) : Int)
        ≤ c.num * ((a.den : Nat) : Int) * ((b.den : Nat) : Int) := by nlinarith
    exact le_of_mul_le_mul_right h3 hb⟩

/-- `std::sort(candidates.begin(), candidates.end())` on `CompactionEntry`. -/
def sort_candidates (cands : List CompactionEntry) : List CompactionEntry :=
  cands.insertionSort entryGE

/-- The greedy selection loop of `TabletUpdates::compaction`: before adding a
candidate, stop if inputs are already non-empty and the candidate would push
the estimated post-compaction rows or bytes beyond the thresholds with 1.5x
slack; after adding one, stop once the estimate exceeds a threshold.  Returns
the picked entries in pick order. -/
def greedy_pick (haveInputs : Bool) (total_rows_after total_bytes_after : Nat) :
    List CompactionEntry → List CompactionEntry
  | [] => []
  | e :: rest =>
    let new_rows := total_rows_after + e.num_rows - e.num_dels
    let new_bytes := total_bytes_after + e.bytes * (e.num_rows - e.num_dels) / e.num_rows
    if haveInputs = true ∧ (new_rows > compaction_result_rows_threashold * 3 / 2 ∨
        new_bytes > compaction_result_bytes_threashold * 3 / 2) then []
    else if new_bytes > compaction_result_bytes_threashold ∨
        new_rows > compaction_result_rows_threashold then [e]
    else e :: greedy_pick true new_rows new_bytes rest

/-- The input-selection phase of `TabletUpdates::compaction`, as the sequence
in which rowset ids are pushed into `info->inputs`: the fully dead rowsets
(pushed during collection) followed by the greedily picked candidates.  (The
source finally re-sorts `info->inputs` by rowset id before logging; this
models the selection order the claim speaks about.) -/
def compaction_pick (rowsets : List Nat) (stats : List (Nat × RowsetStats)) :
    List Nat :=
  let (dead, cands) := collect_candidates stats rowsets
  dead ++ (greedy_pick (!dead.isEmpty) 0 0 (sort_candidates cands)).map
    CompactionEntry.rowsetid

/-- The specification's "fully dead" candidates among the applied version's
rowsets, in rowset order: a stats record exists, the compaction score is
positive, and `num_rows == num_dels`. -/
def dead_candidates (stats : List (Nat × RowsetStats)) (rowsets : List Nat) :
    List Nat :=
  rowsets.filter (fun rid =>
    match stats.lookup rid with
    | some s => decide (0 < s.compaction_score) && (s.num_rows == s.num_dels)
    | none => false)

/-- Running `(rows, bytes)` estimate of the post-compaction output over a
sequence of picked entries. -/
def totalsAfter : Nat × Nat → List CompactionEntry → Nat × Nat
  | t, [] => t
  | t, e :: rest =>
    totalsAfter (t.1 + e.num_rows - e.num_dels,
      t.2 + e.bytes * (e.num_rows - e.num_dels) / e.num_rows) rest

/-- The estimate is within the 1x thresholds. -/
def withinThresholds (t : Nat × Nat) : Prop :=
  t.1 ≤ compaction_result_rows_threashold ∧ t.2 ≤ compaction_result_bytes_threashold

/-- The estimate is within the 1.5x-slack bounds. -/
def withinSlack (t : Nat × Nat) : Prop :=
  t.1 ≤ compaction_result_rows_threashold * 3 / 2 ∧
    t.2 ≤ compaction_result_bytes_threashold * 3 / 2

/-- The sorted non-dead candidate list the greedy loop consumes. -/
def compaction_sorted_candidates (rowsets : List Nat)
    (stats : List (Nat × RowsetStats)) : List CompactionEntry :=
  sort_candidates (collect_candidates stats rowsets).2

/-- The greedily picked entries, in pick order. -/
def compaction_greedy (rowsets : List Nat) (stats : List (Nat × RowsetStats)) :
    List CompactionEntry :=
  greedy_pick (!(collect_candidates stats rowsets).1.isEmpty) 0 0
    (compaction_sorted_candidates rowsets stats)

/-- A candidate stats record: 100 rows, 50 deleted, positive score. -/
def twinStat : RowsetStats :=
  { num_segments := 1, num_rows := 100, num_dels := 50, byte_size := 1000,
    compaction_score := 100 }

/-- Two rowsets sharing identical stats — hence equal `score_per_live_row`. -/
def twinStats : List (Nat × RowsetStats) := [(1, twinStat), (2, twinStat)]

/-- Stats with two live candidates of distinct scores and one fully dead
rowset (id 3). -/
def witStats : List (Nat × RowsetStats) :=
  [(1, { num_segments := 1, num_rows := 100, num_dels := 50, byte_size := 1000,
         compaction_score := 200 }),
   (2, { num_segments := 1, num_rows := 100, num_dels := 90, byte_size := 1000,
         compaction_score := 900 }),
   (3, { num_segments := 1, num_rows := 10, num_dels := 10, byte_size := 100,
         compaction_score := 42 })]

/-- A small concrete rowset used to exercise the model. -/
def exampleRowset : RowsetIn :=
  { num_segments := 1, num_rows := 100, data_disk_size := 1000 }

/-- A small concrete well-formed tablet state: one applied version `1`
holding one rowset, nothing pending. -/
def exampleState : TabletState :=
  { versions := [{ major := 1, minor := 0, rowsets := [0], deltas := [0] }]
    apply_version_idx := 0
    pending := []
    rowsets := [(0, exampleRowset)]
    rowset_stats := [(0, new_rowset_stats 1 exampleRowset)]
    next_rowset_id := 1
    next_log_id := 1
    error := false }

/-- `exampleState` with a single buffered out-of-order commit at version 3. -/
def pendingDupState : TabletState :=
  { exampleState with pending := [(3, exampleRowset)] }

/-- `exampleState` after 101 out-of-order commits were buffered
(versions 3..103): the pending map holds more entries than the bound
`_pending_commits.size() > 100` tolerates. -/
def overfullPendingState : TabletState :=
  { exampleState with
    pending := (List.range 101).map (fun i => (i + 3, exampleRowset)) }

end StarRocks

namespace StarRocksJoin

/-!
The vectorized hash-join build/probe engine.  The implementation
(`join_hash_map.h` / `join_hash_map.tpp`) is not among the sampled sources —
only its test `join_hash_map_test.cpp` is — so the definitions below are
modelled from the specification and cross-checked against the expectations
encoded in that test.
-/

section JoinDefs

variable {κ : Type} [DecidableEq κ]

/-- Modelled from the spec: the chaining hash table of `JoinHashTableItems`
(`join_hash_map.h`, not among the sampled sources): `first : bucket → row`
head pointers and `next : row → row` continuation pointers over 1-based build
rows, with row 0 the reserved sentinel terminating every chain. -/
structure HashTable where
  firstIdx : Nat → Nat
  nextIdx : Nat → Nat
  rowCount : Nat

/-- The empty table: every bucket head and every `next` pointer is the
sentinel 0. -/
def emptyTable (n : Nat) : HashTable :=
  ⟨fun _ => 0, fun _ => 0, n⟩

/-- Head insertion of build row `i` into bucket `b`:
`next[i] = first[b]; first[b] = i`. -/
def insertRow (t : HashTable) (b : Nat) (i : Nat) : HashTable :=
  { t with
    firstIdx := fun b' => if b' = b then i else t.firstIdx b'
    nextIdx := fun j => if j = i then t.firstIdx b else t.nextIdx j }

/-- Modelled from the spec: the row loop of `construct_hash_table` — build
rows are inserted in ascending order `1..n`; a null key (`none`) is never
inserted into any chain.  `bucketOf` is the composed hash-and-mask of the
active key-encoding strategy (single fixed-width, composite packed, or
serialized), left abstract so every strategy is covered. -/
def buildAux (bucketOf : κ → Nat) : Nat → List (Option κ) → HashTable → HashTable
  | _, [], t => t
  | i, none :: rest, t => buildAux bucketOf (i + 1) rest t
  | i, some k :: rest, t => buildAux bucketOf (i + 1) rest (insertRow t (bucketOf k) i)

/-- Modelled from the spec: `construct_hash_table` over the build-side key
column; entry `keys[idx]` is the (possibly null) key of build row `idx + 1`
(row 0 is the reserved sentinel). -/
def construct_hash_table (bucketOf : κ → Nat) (keys : List (Option κ)) : HashTable :=
  buildAux bucketOf 1 keys (emptyTable keys.length)

/-- Walking a `next` chain from row `i`, with explicit fuel (the chains of a
well-formed table strictly decrease, so fuel `i` suffices). -/
def chainWalk (t : HashTable) : Nat → Nat → List Nat
  | 0, _ => []
  | fuel + 1, i => if i = 0 then [] else i :: chainWalk t fuel (t.nextIdx i)

/-- All rows visited when walking bucket `b`'s chain from `first[b]`. -/
def bucketChain (t : HashTable) (b : Nat) : List Nat :=
  chainWalk t (t.firstIdx b) (t.firstIdx b)

/-- `next` pointers strictly decrease — every chain step goes to a smaller
row (or the sentinel). -/
def Decr (t : HashTable) : Prop := ∀ j, 1 ≤ j → t.nextIdx j < j

/-- All bucket heads are below `m`. -/
def HeadsLT (t : HashTable) (m : Nat) : Prop := ∀ b, t.firstIdx b < m

/-- The 1-based build rows whose key is non-null and falls in bucket `b`,
in ascending row order, rows numbered from `i`. -/
def rowsToBucket (bucketOf : κ → Nat) : Nat → List (Option κ) → Nat → List Nat
  | _, [], _ => []
  | i, none :: rest, b => rowsToBucket bucketOf (i + 1) rest b
  | i, some k :: rest, b =>
    (if bucketOf k = b then [i] else []) ++ rowsToBucket bucketOf (i + 1) rest b

/-- The 1-based build rows whose key equals `some k`, ascending, numbered
from `i`. -/
def rowsWithKeyAux (k : κ) : Nat → List (Option κ) → List Nat
  | _, [] => []
  | i, ok :: rest =>
    (if ok = some k then [i] else []) ++ rowsWithKeyAux k (i + 1) rest

/-- The 1-based build rows whose key equals `some k`, ascending. -/
def rowsWithKey (k : κ) (keys : List (Option κ)) : List Nat :=
  rowsWithKeyAux k 1 keys

/-- Modelled from the spec: the per-probe-row match set — walk the probe
key's bucket chain and keep the rows whose build key equals the probe key
(the equality predicate of the active encoding strategy). -/
def matchesOf (t : HashTable) (keys : List (Option κ)) (bucketOf : κ → Nat)
    (k : κ) : List Nat :=
  (bucketChain t (bucketOf k)).filter (fun j => keys.get? (j - 1) == some (some k))

end JoinDefs

/-- The `match_flag` classification (`JoinMatchFlag`). -/
inductive JoinMatchFlag where
  | NORMAL
  | ALL_MATCH_ONE
  | MOST_MATCH_ONE
deriving DecidableEq

/-- Modelled from the spec: `ALL_MATCH_ONE` when every probe row matched
exactly one build row, `MOST_MATCH_ONE` when every row matched at most one
(a minority matching zero), `NORMAL` otherwise. -/
def matchFlagOf (ms : List (List Nat)) : JoinMatchFlag :=
  if ms.all (fun m => m.length == 1) then JoinMatchFlag.ALL_MATCH_ONE
  else if ms.all (fun m => m.length ≤ 1) then JoinMatchFlag.MOST_MATCH_ONE
  else JoinMatchFlag.NORMAL

/-- The output of one probe call: the emitted `(probe_index, build_index)`
pairs in emission order, the `has_remain` flag and the resumption cursors
`cur_probe_index` / `cur_row_match_count`. -/
structure ProbeOut where
  pairs : List (Nat × Nat)
  has_remain : Bool
  cur_probe_index : Nat
  cur_row_match_count : Nat
deriving DecidableEq, Inhabited

/-- All `(probe_index, build_index)` pairs of the per-row match lists `ms`,
in probe-row order, probe rows numbered from `base`. -/
def pairsOf : Nat → List (List Nat) → List (Nat × Nat)
  | _, [] => []
  | base, m :: rest => (m.map (fun bi => (base, bi))) ++ pairsOf (base + 1) rest

/-- The pairs still to emit when resuming at probe row `base` with the first
`skip` matches of that row already emitted. -/
def restPairs (base skip : Nat) : List (List Nat) → List (Nat × Nat)
  | [] => []
  | m :: rest => ((m.drop skip).map (fun bi => (base, bi))) ++ pairsOf (base + 1) rest

/-- Modelled from the spec: one call of the `_probe_from_ht` family over the
match lists of the probe rows from `cur_probe_index` on.  Matches are
emitted in probe-row order up to the `budget` (the fixed output chunk size);
when a row's match count plus already-emitted pairs would exceed the batch,
the call stops mid-chain, records the resumption cursors and sets
`has_remain`; a fully drained batch resets both cursors to zero. -/
def probeStepAux : Nat → Nat → Nat → List (List Nat) → ProbeOut
  | _, _, _, [] => ⟨[], false, 0, 0⟩
  | base, skip, budget, m :: rest =>
    let avail := m.drop skip
    if budget < avail.length then
      ⟨(avail.take budget).map (fun bi => (base, bi)), true, base, skip + budget⟩
    else
      let out := probeStepAux (base + 1) 0 (budget - avail.length) rest
      ⟨(avail.map (fun bi => (base, bi))) ++ out.pairs, out.has_remain,
        out.cur_probe_index, out.cur_row_match_count⟩

/-- Repeated probe calls over the fixed per-row match lists `ms`, starting
from the cursors `(cpi, crmc)` and re-invoked while `has_remain` is set.
`fuel` bounds the number of calls (any value above the total match count
suffices). -/
def probe_calls (chunk : Nat) (ms : List (List Nat)) :
    Nat → Nat → Nat → List ProbeOut
  | 0, _, _ => []
  | fuel + 1, cpi, crmc =>
    let out := probeStepAux cpi crmc chunk (ms.drop cpi)
    out :: (if out.has_remain then
      probe_calls chunk ms fuel out.cur_probe_index out.cur_row_match_count
    else [])

section ProbeFromTable

variable {κ : Type} [DecidableEq κ]

/-- One probe call against a built hash table: the probe keys' match lists
are derived by chain walking, and the batch is emitted by `probeStepAux`. -/
def probe_from_ht (t : HashTable) (keys : List (Option κ)) (bucketOf : κ → Nat)
    (probeKeys : List κ) (chunk cpi crmc : Nat) : ProbeOut :=
  probeStepAux cpi crmc chunk ((probeKeys.map (matchesOf t keys bucketOf)).drop cpi)

/-- Draining probe: repeated `probe_from_ht` calls while `has_remain`. -/
def probe_drain (t : HashTable) (keys : List (Option κ)) (bucketOf : κ → Nat)
    (probeKeys : List κ) (chunk fuel : Nat) : List ProbeOut :=
  probe_calls chunk (probeKeys.map (matchesOf t keys bucketOf)) fuel 0 0

/-- Every `(probe_index, build_index)` pair of the probe batch, in probe-row
order. -/
def allPairs (t : HashTable) (keys : List (Option κ)) (bucketOf : κ → Nat)
    (probeKeys : List κ) : List (Nat × Nat) :=
  pairsOf 0 (probeKeys.map (matchesOf t keys bucketOf))

/-- The full sequence of probe calls needed to drain the batch (one more
than the total match count always suffices as fuel). -/
def probe_drain_calls (t : HashTable) (keys : List (Option κ))
    (bucketOf : κ → Nat) (probeKeys : List κ) (chunk : Nat) : List ProbeOut :=
  probe_drain t keys bucketOf probeKeys chunk
    ((allPairs t keys bucketOf probeKeys).length + 1)

end ProbeFromTable

end StarRocksJoin

namespace StarRocks

/-! ### Theorems -/

theorem backMajor_commit_unlocked (costSeek : Int) (st : TabletState) (v : Nat)
    (r : RowsetIn) : (rowset_commit_unlocked costSeek st v r).backMajor = v := by
  simp [rowset_commit_unlocked, TabletState.backMajor, TabletState.back,
    List.getLastD_eq_getLast?, List.getLast?_append]

theorem majors_commit_unlocked (costSeek : Int) (st : TabletState) (v : Nat)
    (r : RowsetIn) :
    (rowset_commit_unlocked costSeek st v r).majors = st.majors ++ [v] := by
  simp [rowset_commit_unlocked, TabletState.majors]

theorem pending_commit_unlocked (costSeek : Int) (st : TabletState) (v : Nat)
    (r : RowsetIn) : (rowset_commit_unlocked costSeek st v r).pending = st.pending := rfl

theorem error_commit_unlocked (costSeek : Int) (st : TabletState) (v : Nat)
    (r : RowsetIn) : (rowset_commit_unlocked costSeek st v r).error = st.error := rfl

/-- Characterization of the pending-drain loop: the majors appended to the log
are exactly the promoted run computed from the walked keys. -/
theorem try_commit_pendings_aux_majors (costSeek : Int) :
    ∀ (ps : List (Nat × RowsetIn)) (st : TabletState),
      (try_commit_pendings_aux costSeek st ps).1.majors
        = st.majors ++ chainFromPending st.backMajor (ps.map Prod.fst)
  | [], st => by simp [try_commit_pendings_aux, chainFromPending]
  | (v, r) :: rest, st => by
    simp only [try_commit_pendings_aux, List.map_cons, chainFromPending]
    by_cases h1 : v ≤ st.backMajor
    · simp only [if_pos h1]
      exact try_commit_pendings_aux_majors costSeek rest st
    · simp only [if_neg h1]
      by_cases h2 : v = st.backMajor + 1
      · simp only [if_pos h2]
        have ih := try_commit_pendings_aux_majors costSeek rest
          (rowset_commit_unlocked costSeek st v r)
        rw [ih, backMajor_commit_unlocked, majors_commit_unlocked]
        simp [h2]
      · simp [if_neg h2]

theorem try_commit_pendings_aux_rest_suffix (costSeek : Int) :
    ∀ (ps : List (Nat × RowsetIn)) (st : TabletState),
      List.IsSuffix (try_commit_pendings_aux costSeek st ps).2.1 ps
  | [], st => by simp [try_commit_pendings_aux]
  | (v, r) :: rest, st => by
    simp only [try_commit_pendings_aux]
    by_cases h1 : v ≤ st.backMajor
    · simp only [if_pos h1]
      exact (try_commit_pendings_aux_rest_suffix costSeek rest st).trans
        (List.suffix_cons (v, r) rest)
    · simp only [if_neg h1]
      by_cases h2 : v = st.backMajor + 1
      · simp only [if_pos h2]
        exact (try_commit_pendings_aux_rest_suffix costSeek rest _).trans
          (List.suffix_cons (v, r) rest)
      · simp only [if_neg h2]
        exact List.suffix_rfl

theorem try_commit_pendings_aux_error (costSeek : Int) :
    ∀ (ps : List (Nat × RowsetIn)) (st : TabletState),
      (try_commit_pendings_aux costSeek st ps).1.error = st.error
  | [], st => rfl
  | (v, r) :: rest, st => by
    simp only [try_commit_pendings_aux]
    by_cases h1 : v ≤ st.backMajor
    · simp only [if_pos h1]
      exact try_commit_pendings_aux_error costSeek rest st
    · simp only [if_neg h1]
      by_cases h2 : v = st.backMajor + 1
      · simp only [if_pos h2]
        rw [try_commit_pendings_aux_error costSeek rest _, error_commit_unlocked]
      · simp [if_neg h2]

/-- The run promoted by the drain loop continues a consecutive log. -/
theorem chainFromPending_consec :
    ∀ (ks : List Nat) (cur : Nat),
      List.Chain' (fun a b => b = a + 1) (cur :: chainFromPending cur ks)
  | [], cur => by simp [chainFromPending]
  | p :: rest, cur => by
    simp only [chainFromPending]
    by_cases h1 : p ≤ cur
    · simp only [if_pos h1]
      exact chainFromPending_consec rest cur
    · simp only [if_neg h1]
      by_cases h2 : p = cur + 1
      · simp only [if_pos h2]
        exact List.Chain'.cons h2 (chainFromPending_consec rest p)
      · simp [if_neg h2]

theorem mem_insertPending (v : Nat) (r : RowsetIn) :
    ∀ (ps : List (Nat × RowsetIn)) (x : Nat × RowsetIn),
      x ∈ insertPending v r ps → x = (v, r) ∨ x ∈ ps
  | [], x, hx => by simpa [insertPending] using hx
  | (v', r') :: rest, x, hx => by
    simp only [insertPending] at hx
    by_cases h1 : v < v'
    · simp only [if_pos h1, List.mem_cons] at hx
      rcases hx with h | h | h
      · exact Or.inl h
      · exact Or.inr (by simp [h])
      · exact Or.inr (by simp [h])
    · simp only [if_neg h1, List.mem_cons] at hx
      rcases hx with h | h
      · exact Or.inr (by simp [h])
      · rcases mem_insertPending v r rest x h with h' | h'
        · exact Or.inl h'
        · exact Or.inr (by simp [h'])

theorem lookup_none_keys {β : Type} (v : Nat) :
    ∀ (ps : List (Nat × β)), ps.lookup v = none → ∀ p ∈ ps, p.1 ≠ v
  | [], _, p, hp => absurd hp (List.not_mem_nil p)
  | (k, b) :: rest, h, p, hp => by
    by_cases hk : k = v
    · simp [List.lookup_cons, hk] at h
    · rw [List.lookup_cons, beq_false_of_ne (fun hvk => hk hvk.symm)] at h
      rcases List.mem_cons.mp hp with hh | hh
      · simpa [hh] using hk
      · exact lookup_none_keys v rest h p hh

theorem sorted_insertPending (v : Nat) (r : RowsetIn) :
    ∀ (ps : List (Nat × RowsetIn)), PendingSorted ps → (∀ p ∈ ps, p.1 ≠ v) →
      PendingSorted (insertPending v r ps)
  | [], _, _ => List.pairwise_singleton _ _
  | (v', r') :: rest, hs, hv => by
    unfold PendingSorted at hs ⊢
    rcases List.pairwise_cons.mp hs with ⟨hlt, hrest⟩
    simp only [insertPending]
    by_cases h1 : v < v'
    · rw [if_pos h1]
      refine List.pairwise_cons.mpr ⟨?_, hs⟩
      intro a ha
      rcases List.mem_cons.mp ha with h | h
      · simp [h, h1]
      · exact h1.trans (hlt a h)
    · rw [if_neg h1]
      have hne : v' ≠ v := hv (v', r') (by simp)
      have h2 : v' < v := lt_of_le_of_ne (not_lt.mp h1) hne
      refine List.pairwise_cons.mpr ⟨?_, ?_⟩
      · intro a ha
        rcases mem_insertPending v r rest a ha with h | h
        · simp [h, h2]
        · exact hlt a h
      · exact sorted_insertPending v r rest hrest
          (fun p hp => hv p (List.mem_cons_of_mem _ hp))

theorem majors_ne_nil (st : TabletState) (h : st.versions ≠ []) : st.majors ≠ [] := by
  unfold TabletState.majors
  simpa using h

theorem map_getLastD_major :
    ∀ (l : List EditVersionInfo), l ≠ [] →
      (l.map (·.major)).getLast? = some (l.getLastD default).major
  | [a], _ => rfl
  | a :: b :: rest, _ => by
    have ih := map_getLastD_major (b :: rest) (by simp)
    simpa [List.getLast?_cons_cons] using ih

theorem majors_getLast (st : TabletState) (h : st.versions ≠ []) :
    st.majors.getLast? = some st.backMajor :=
  map_getLastD_major st.versions h

theorem versions_ne_nil_iff (st : TabletState) : st.versions ≠ [] ↔ st.majors ≠ [] := by
  unfold TabletState.majors
  simp

/-- Characterization of one `rowset_commit` call on a live (non-error) state:
the majors appended to the version log are exactly `promotedVersions`. -/
theorem rowset_commit_majors (costSeek : Int) (st : TabletState) (v : Nat)
    (r : RowsetIn) (herr : st.error = false) :
    (rowset_commit costSeek st v r).2.1.majors
      = st.majors ++ promotedVersions st.backMajor v (st.pending.map Prod.fst) := by
  unfold rowset_commit promotedVersions
  simp only [herr, Bool.false_eq_true, if_false]
  by_cases h1 : v ≤ st.backMajor
  · simp [if_pos h1]
  · simp only [if_neg h1]
    by_cases h2 : v > st.backMajor + 1
    · simp only [if_pos h2]
      by_cases h3 : st.pending.length > 100
      · simp [if_pos h3]
      · simp only [if_neg h3]
        by_cases h4 : (st.pending.lookup v).isSome
        · simp [if_pos h4]
        · simp [if_neg h4, TabletState.majors]
    · simp only [if_neg h2]
      unfold try_commit_pendings
      have haux := try_commit_pendings_aux_majors costSeek
        (rowset_commit_unlocked costSeek st v r).pending
        { rowset_commit_unlocked costSeek st v r with pending := [] }
      have hpend : (rowset_commit_unlocked costSeek st v r).pending = st.pending :=
        pending_commit_unlocked costSeek st v r
      simp only [TabletState.majors] at haux ⊢
      rw [haux, hpend]
      have hb : ({ rowset_commit_unlocked costSeek st v r with pending := [] } :
          TabletState).backMajor = v := backMajor_commit_unlocked costSeek st v r
      rw [hb]
      have hm : ({ rowset_commit_unlocked costSeek st v r with pending := [] } :
          TabletState).versions.map (·.major) = st.versions.map (·.major) ++ [v] :=
        majors_commit_unlocked costSeek st v r
      rw [hm]
      simp

theorem rowset_commit_pending_sorted (costSeek : Int) (st : TabletState) (v : Nat)
    (r : RowsetIn) (hps : PendingSorted st.pending) :
    PendingSorted (rowset_commit costSeek st v r).2.1.pending := by
  unfold rowset_commit
  by_cases he : st.error
  · simp [he, hps]
  · simp only [he, if_false, Bool.false_eq_true]
    by_cases h1 : v ≤ st.backMajor
    · simp [if_pos h1, hps]
    · simp only [if_neg h1]
      by_cases h2 : v > st.backMajor + 1
      · simp only [if_pos h2]
        by_cases h3 : st.pending.length > 100
        · simp [if_pos h3, hps]
        · simp only [if_neg h3]
          by_cases h4 : (st.pending.lookup v).isSome
          · simp [if_pos h4, hps]
          · simp only [if_neg h4]
            have hnone : st.pending.lookup v = none :=
              Option.not_isSome_iff_eq_none.mp h4
            exact sorted_insertPending v r st.pending hps
              (lookup_none_keys v st.pending hnone)
      · simp only [if_neg h2]
        unfold try_commit_pendings
        have hsuf := try_commit_pendings_aux_rest_suffix costSeek
          (rowset_commit_unlocked costSeek st v r).pending
          { rowset_commit_unlocked costSeek st v r with pending := [] }
        have hpend : (rowset_commit_unlocked costSeek st v r).pending = st.pending :=
          pending_commit_unlocked costSeek st v r
        rw [hpend] at hsuf
        exact List.Pairwise.sublist hsuf.sublist hps

theorem rowset_commit_WF (costSeek : Int) (st : TabletState) (v : Nat)
    (r : RowsetIn) (h : WF st) : WF (rowset_commit costSeek st v r).2.1 := by
  obtain ⟨hne, hcons, hps⟩ := h
  by_cases he : st.error
  · have : rowset_commit costSeek st v r = (Status.internalError, st, []) := by
      unfold rowset_commit
      simp [he]
    rw [this]
    exact ⟨hne, hcons, hps⟩
  · have herr : st.error = false := Bool.not_eq_true _ ▸ (by simpa using he)
    have hmaj := rowset_commit_majors costSeek st v r herr
    refine ⟨?_, ?_, rowset_commit_pending_sorted costSeek st v r hps⟩
    · rw [versions_ne_nil_iff, hmaj]
      simp only [ne_eq, List.append_eq_nil]
      intro hc
      exact (versions_ne_nil_iff st).mp hne hc.1
    · unfold ConsecutiveMajors at hcons ⊢
      rw [hmaj]
      unfold promotedVersions
      by_cases h1 : v ≤ st.backMajor
      · simpa [if_pos h1] using hcons
      · simp only [if_neg h1]
        by_cases h2 : v > st.backMajor + 1
        · simpa [if_pos h2] using hcons
        · simp only [if_neg h2]
          have hv : v = st.backMajor + 1 := by omega
          rw [List.chain'_append]
          refine ⟨hcons, ?_, ?_⟩
          · exact chainFromPending_consec (st.pending.map Prod.fst) v
          · intro x hx y hy
            rw [majors_getLast st hne] at hx
            simp only [Option.mem_def, Option.some.injEq] at hx
            simp only [List.head?_cons, Option.mem_def, Option.some.injEq] at hy
            omega

/-- C1: for every sequence of `rowset_commit` calls, including out-of-order
arrivals, the committed version log stays strictly increasing in major version
with no gaps (consecutive majors), and a single call appends exactly the
promoted run: nothing unless its version is the current highest major plus
one, in which case the commit is appended and the buffered pending commits
are promoted in ascending version order exactly as long as the next pending
version equals current + 1 (`promotedVersions`). -/
theorem rowset_commit_version_log_consecutive (costSeek : Int) :
    (∀ (st : TabletState) (cmds : List (Nat × RowsetIn)), WF st →
      WF (run_commits costSeek st cmds) ∧
        ConsecutiveMajors (run_commits costSeek st cmds).majors) ∧
    (∀ (st : TabletState) (v : Nat) (r : RowsetIn), WF st → st.error = false →
      (rowset_commit costSeek st v r).2.1.majors
        = st.majors ++ promotedVersions st.backMajor v (st.pending.map Prod.fst)) := by
  constructor
  · intro st cmds
    induction cmds generalizing st with
    | nil => exact fun h => ⟨h, h.2.1⟩
    | cons c rest ih =>
      intro h
      obtain ⟨v, r⟩ := c
      exact ih (rowset_commit costSeek st v r).2.1 (rowset_commit_WF costSeek st v r h)
  · intro st v r _ herr
    exact rowset_commit_majors costSeek st v r herr

/-- Concrete run of C1: an out-of-order arrival of version 3 buffered in
`pending_commits` is promoted when version 2 lands. -/
theorem rowset_commit_version_log_consecutive_witness :
    WF exampleState ∧
    ConsecutiveMajors
      (run_commits 1 exampleState [(3, exampleRowset), (2, exampleRowset)]).majors ∧
    (rowset_commit 1 exampleState 2 exampleRowset).2.1.majors
      = exampleState.majors ++
        promotedVersions exampleState.backMajor 2 (exampleState.pending.map Prod.fst) :=
  ⟨by decide,
   ((rowset_commit_version_log_consecutive 1).1 exampleState
      [(3, exampleRowset), (2, exampleRowset)] (by decide)).2,
   (rowset_commit_version_log_consecutive 1).2 exampleState 2 exampleRowset
      (by decide) (by decide)⟩

/-- C3: a `rowset_commit` whose version is at or below the highest committed
version returns success and is a no-op on the in-memory tablet state: the
version log is not extended, `num_rowsets()` and `data_size()` are unchanged,
and the only durable effect is discarding the duplicate rowset's persisted
metadata (`_ignore_rowset_commit`). -/
theorem rowset_commit_duplicate_noop (costSeek : Int) (st : TabletState) (v : Nat)
    (r : RowsetIn) (herr : st.error = false) (hv : v ≤ st.backMajor) :
    rowset_commit costSeek st v r = (Status.ok, st, [MetaOp.discardRowsetMeta r]) ∧
    (rowset_commit costSeek st v r).2.1.num_rowsets = st.num_rowsets ∧
    (rowset_commit costSeek st v r).2.1.data_size = st.data_size ∧
    (rowset_commit costSeek st v r).2.1.versions = st.versions := by
  have h : rowset_commit costSeek st v r = (Status.ok, st, [MetaOp.discardRowsetMeta r]) := by
    unfold rowset_commit
    simp [herr, hv]
  exact ⟨h, by rw [h], by rw [h], by rw [h]⟩

/-- Concrete run of C3: re-sending version 1 to `exampleState` (whose highest
committed version is 1) succeeds and changes nothing in memory. -/
theorem rowset_commit_duplicate_noop_witness :
    exampleState.error = false ∧ 1 ≤ exampleState.backMajor ∧
    rowset_commit 1 exampleState 1 exampleRowset
      = (Status.ok, exampleState, [MetaOp.discardRowsetMeta exampleRowset]) :=
  ⟨by decide, by decide,
   (rowset_commit_duplicate_noop 1 exampleState 1 exampleRowset (by decide) (by decide)).1⟩

/-- C10, counterexample: an out-of-order commit whose version is already
buffered in `pending_commits` does NOT return success when more than 100
commits are pending — the bound check `_pending_commits.size() > 100`
precedes the duplicate check and returns `InternalError`. -/
theorem rowset_commit_pending_duplicate_cex :
    (overfullPendingState.pending.lookup 50).isSome = true ∧
    50 > overfullPendingState.backMajor + 1 ∧
    overfullPendingState.error = false ∧
    (rowset_commit 1 overfullPendingState 50 exampleRowset).1 ≠ Status.ok ∧
    (rowset_commit 1 overfullPendingState 50 exampleRowset).1 = Status.internalError := by
  decide

/-- C10, amended: an out-of-order `rowset_commit` whose version is already
present in `pending_commits` returns success while leaving the pending map
and the version log unchanged — provided at most 100 commits are pending
(otherwise the bound check fails the call with `InternalError`).  The newly
supplied rowset is not buffered and no pending-rowset entry is persisted;
the only durable effect is discarding the new rowset's metadata. -/
theorem rowset_commit_pending_duplicate_noop (costSeek : Int) (st : TabletState)
    (v : Nat) (r : RowsetIn) (herr : st.error = false)
    (hv : v > st.backMajor + 1) (hb : st.pending.length ≤ 100)
    (hdup : (st.pending.lookup v).isSome) :
    rowset_commit costSeek st v r = (Status.ok, st, [MetaOp.discardRowsetMeta r]) := by
  unfold rowset_commit
  rw [herr]
  rw [if_neg (by simp)]
  rw [if_neg (by omega), if_pos hv, if_neg (by omega), if_pos hdup]

/-- Concrete run of the amended C10: version 3 is already pending in
`pendingDupState`; re-sending it succeeds and changes nothing. -/
theorem rowset_commit_pending_duplicate_noop_witness :
    pendingDupState.error = false ∧ 3 > pendingDupState.backMajor + 1 ∧
    pendingDupState.pending.length ≤ 100 ∧
    (pendingDupState.pending.lookup 3).isSome = true ∧
    rowset_commit 1 pendingDupState 3 exampleRowset
      = (Status.ok, pendingDupState, [MetaOp.discardRowsetMeta exampleRowset]) :=
  ⟨by decide, by decide, by decide, by decide,
   rowset_commit_pending_duplicate_noop 1 pendingDupState 3 exampleRowset
     (by decide) (by decide) (by decide) (by decide)⟩

/-- C9: for every `RowsetStats`, `_calc_compaction_score` computes the
seek-cost constant plus `(read_cost + write_cost)` times the estimated delete
bytes (`byte_size` scaled by the fraction `num_dels / num_rows`) minus
`write_cost` times `byte_size`, with `read_cost = 4` and `write_cost = 1`;
fewer than 10 rows yield the fixed minimal score (the seek-cost constant). -/
theorem calc_compaction_score_eq_spec (costSeek : Int) (stats : RowsetStats) :
    (calc_compaction_score costSeek stats).compaction_score
      = compaction_score_spec costSeek stats := by
  unfold calc_compaction_score compaction_score_spec cost_record_read cost_record_write
  split <;> simp

/-- C2, counterexample: on a violated cardinality equation (the newly added
ordinal `1` is already deleted in the old delete vector) the apply step's
outcome is the process-fatal `LOG(FATAL)` abort, not the sticky error state
the claim asserts. -/
theorem apply_delvec_violation_cex :
    apply_existing_segment_delvec ⟨5, {1}⟩ {1} 6 = ApplyOutcome.fatal ∧
    apply_existing_segment_delvec ⟨5, {1}⟩ {1} 6 ≠ ApplyOutcome.stickyError := by
  decide

/-- C2, amended: for every delete-vector merge against a segment with a
persisted delete vector, if the new deletions are disjoint from the old ones
the merge succeeds and the new cardinality is exactly old plus added; if the
equation is violated (the delta overlaps the old vector) the step aborts the
process fatally; and it never produces a delete vector violating the
equation — data is never silently lost, but the failure mode is the fatal
abort, not the sticky error state. -/
theorem apply_delvec_cardinality (old : DelVector) (adds : Finset Nat) (v : Nat) :
    (Disjoint old.dels adds →
      apply_existing_segment_delvec old adds v
        = ApplyOutcome.ok (add_dels_as_new_version old adds v) ∧
      (add_dels_as_new_version old adds v).cardinality
        = old.cardinality + adds.card) ∧
    (¬ Disjoint old.dels adds →
      apply_existing_segment_delvec old adds v = ApplyOutcome.fatal) ∧
    (∀ nw, apply_existing_segment_delvec old adds v = ApplyOutcome.ok nw →
      nw.cardinality = old.cardinality + adds.card) ∧
    apply_existing_segment_delvec old adds v ≠ ApplyOutcome.stickyError := by
  have hcard : (add_dels_as_new_version old adds v).cardinality
      = (old.dels ∪ adds).card := rfl
  constructor
  · intro hdis
    have h := Finset.card_union_of_disjoint hdis
    unfold apply_existing_segment_delvec
    rw [if_neg (by simp [DelVector.cardinality, add_dels_as_new_version, h])]
    exact ⟨rfl, by simp [DelVector.cardinality, add_dels_as_new_version, h]⟩
  refine ⟨?_, ?_, ?_⟩
  · intro hdis
    have hne : (old.dels ∪ adds).card ≠ old.dels.card + adds.card := by
      intro he
      exact hdis ((Finset.card_union_eq_card_add_card).mp he)
    unfold apply_existing_segment_delvec
    rw [if_pos (by simpa [DelVector.cardinality, add_dels_as_new_version] using
      fun hh => hne hh.symm)]
  · intro nw hnw
    unfold apply_existing_segment_delvec at hnw
    by_cases hc : old.cardinality + adds.card
        = (add_dels_as_new_version old adds v).cardinality
    · rw [if_neg (by simp [hc])] at hnw
      cases hnw
      exact hc.symm
    · rw [if_pos hc] at hnw
      cases hnw
  · unfold apply_existing_segment_delvec
    by_cases hc : old.cardinality + adds.card
        = (add_dels_as_new_version old adds v).cardinality
    · rw [if_neg (not_not_intro hc)]
      intro h
      cases h
    · rw [if_pos hc]
      intro h
      cases h

/-- Concrete run of the amended C2: deleting ordinal 3 in a segment whose old
delete vector holds `{1, 2}` yields a delete vector of cardinality 3. -/
theorem apply_delvec_cardinality_witness :
    Disjoint ({1, 2} : Finset Nat) ({3} : Finset Nat) ∧
    apply_existing_segment_delvec ⟨5, {1, 2}⟩ {3} 6
      = ApplyOutcome.ok (add_dels_as_new_version ⟨5, {1, 2}⟩ {3} 6) ∧
    (add_dels_as_new_version ⟨5, {1, 2}⟩ {3} 6).cardinality
      = (⟨5, {1, 2}⟩ : DelVector).cardinality + ({3} : Finset Nat).card :=
  ⟨by decide,
   ((apply_delvec_cardinality ⟨5, {1, 2}⟩ {3} 6).1 (by decide)).1,
   ((apply_delvec_cardinality ⟨5, {1, 2}⟩ {3} 6).1 (by decide)).2⟩

theorem consec_head_le :
    ∀ (l : List Nat), ConsecutiveMajors l → ∀ h0 ∈ l.head?, ∀ x ∈ l, h0 ≤ x
  | [], _, h0, hh, x, hx => by simp at hx
  | a :: rest, hc, h0, hh, x, hx => by
    simp only [List.head?_cons, Option.mem_def, Option.some.injEq] at hh
    subst hh
    rcases List.mem_cons.mp hx with rfl | hx'
    · exact le_refl x
    · cases rest with
      | nil => simp at hx'
      | cons b rest' =>
        have hc' := (List.chain'_cons.mp hc)
        have hb : b ≤ x := consec_head_le (b :: rest') hc'.2 b (by simp) x hx'
        omega

theorem search_applied_none_of_older (stf : TabletState) (version : Nat)
    (hcons : ConsecutiveMajors stf.majors)
    (hold : ∀ h0 ∈ stf.versions.head?, version < h0.major) :
    search_applied stf.versions stf.apply_version_idx version = none := by
  unfold search_applied
  rw [List.find?_eq_none]
  intro e he
  have hmem : e ∈ stf.versions :=
    List.mem_of_mem_take (List.mem_reverse.mp he)
  cases hv : stf.versions.head? with
  | none =>
    rw [List.head?_eq_none_iff] at hv
    rw [hv] at hmem
    simp at hmem
  | some h0 =>
    have hh : h0.major ∈ stf.majors.head? := by
      unfold TabletState.majors
      rw [List.head?_map, hv]
      rfl
    have hle : h0.major ≤ e.major :=
      consec_head_le stf.majors hcons h0.major hh e.major
        (List.mem_map_of_mem _ hmem)
    have hlt := hold h0 (by rw [hv]; rfl)
    simp only [beq_iff_eq]
    omega

/-- C7: `get_applied_rowsets(version)` waits — bounded at 60000 ms — until the
applied version is at least the requested one and then returns the rowset
list recorded at the log entry with that exact major version; it fails with
`NotFound` when the version is older than the oldest retained log entry, with
`InternalError` when the requested version is beyond everything committed or
pending, and with `TimedOut` (distinct from `NotFound`) when the wait bound
is exceeded. -/
theorem get_applied_rowsets_spec :
    (∀ (stf : TabletState) (version : Nat) (init : Nat × Nat)
        (trace : List WaitObs) (e : EditVersionInfo) (rs : List RowsetIn),
        stf.error = false →
        wait_for_version (version, 0) 60000 init trace = some Status.ok →
        search_applied stf.versions stf.apply_version_idx version = some e →
        gather_rowsets stf.rowsets e.rowsets = some rs →
        get_applied_rowsets stf version init trace = some (Status.ok, rs) ∧
          e.major = version) ∧
    (∀ (stf : TabletState) (version : Nat) (init : Nat × Nat)
        (trace : List WaitObs),
        stf.error = false →
        ConsecutiveMajors stf.majors →
        (∀ h0 ∈ stf.versions.head?, version < h0.major) →
        wait_for_version (version, 0) 60000 init trace = some Status.ok →
        get_applied_rowsets stf version init trace = some (Status.notFound, [])) ∧
    (∀ (version : Nat) (init : Nat × Nat) (o : WaitObs) (rest : List WaitObs),
        evLTb init (version, 0) = true →
        o.errorFlag = false →
        evLTb o.applied (version, 0) = true →
        beyondCommittedAndPending o (version, 0) = true →
        wait_for_version (version, 0) 60000 init (o :: rest)
          = some Status.internalError) ∧
    (∀ (stf : TabletState) (version : Nat) (init : Nat × Nat)
        (trace : List WaitObs),
        stf.error = false →
        wait_for_version (version, 0) 60000 init trace = some Status.internalError →
        get_applied_rowsets stf version init trace
          = some (Status.internalError, [])) ∧
    (∀ (version : Nat) (init : Nat × Nat) (o : WaitObs) (rest : List WaitObs),
        evLTb init (version, 0) = true →
        o.errorFlag = false →
        evLTb o.applied (version, 0) = true →
        beyondCommittedAndPending o (version, 0) = false →
        (60000 : Int) < o.elapsedMs →
        wait_for_version (version, 0) 60000 init (o :: rest)
          = some Status.timedOut) ∧
    (∀ (stf : TabletState) (version : Nat) (init : Nat × Nat)
        (trace : List WaitObs),
        stf.error = false →
        wait_for_version (version, 0) 60000 init trace = some Status.timedOut →
        get_applied_rowsets stf version init trace = some (Status.timedOut, [])) ∧
    Status.timedOut ≠ Status.notFound := by
  refine ⟨?_, ?_, ?_, ?_, ?_, ?_, by decide⟩
  · intro stf version init trace e rs herr hwait hsearch hgather
    constructor
    · unfold get_applied_rowsets
      rw [herr]
      simp only [Bool.false_eq_true, if_false, hwait, hsearch, hgather]
    · have := List.find?_some hsearch
      simpa using this
  · intro stf version init trace herr hcons hold hwait
    unfold get_applied_rowsets
    rw [herr]
    simp only [Bool.false_eq_true, if_false, hwait,
      search_applied_none_of_older stf version hcons hold]
  · intro version init o rest hinit herr happ hbey
    unfold wait_for_version wait_for_version_loop
    rw [hinit]
    simp [herr, happ, hbey]
  · intro stf version init trace herr hwait
    unfold get_applied_rowsets
    rw [herr]
    simp only [Bool.false_eq_true, if_false, hwait]
  · intro version init o rest hinit herr happ hbey htime
    unfold wait_for_version wait_for_version_loop
    rw [hinit]
    simp [herr, happ, hbey, htime]
  · intro stf version init trace herr hwait
    unfold get_applied_rowsets
    rw [herr]
    simp only [Bool.false_eq_true, if_false, hwait]

/-- Concrete runs of C7 on `exampleState` (applied version 1): an applied
read of version 1 succeeds with its rowset list, version 0 is older than the
oldest retained entry and fails `NotFound`, version 5 with nothing committed
or pending beyond 1 fails `InternalError`, and a stalled apply (elapsed
70000 ms) fails `TimedOut`. -/
theorem get_applied_rowsets_spec_witness :
    get_applied_rowsets exampleState 1 (1, 0) [] = some (Status.ok, [exampleRowset]) ∧
    get_applied_rowsets exampleState 0 (1, 0) [] = some (Status.notFound, []) ∧
    wait_for_version (5, 0) 60000 (1, 0) [⟨false, (1, 0), (1, 0), none, 0⟩]
      = some Status.internalError ∧
    get_applied_rowsets exampleState 5 (1, 0) [⟨false, (1, 0), (1, 0), none, 0⟩]
      = some (Status.internalError, []) ∧
    wait_for_version (5, 0) 60000 (1, 0) [⟨false, (1, 0), (9, 0), none, 70000⟩]
      = some Status.timedOut ∧
    get_applied_rowsets exampleState 5 (1, 0) [⟨false, (1, 0), (9, 0), none, 70000⟩]
      = some (Status.timedOut, []) :=
  ⟨(get_applied_rowsets_spec.1 exampleState 1 (1, 0) []
      ⟨1, 0, [0], [0]⟩ [exampleRowset] (by decide) (by decide) (by decide) (by decide)).1,
   get_applied_rowsets_spec.2.1 exampleState 0 (1, 0) [] (by decide) (by decide)
      (by
        intro h0 hh
        have h : (⟨1, 0, [0], [0]⟩ : EditVersionInfo) = h0 := by
          simpa [exampleState] using hh
        rw [← h]
        decide)
      (by decide),
   get_applied_rowsets_spec.2.2.1 5 (1, 0) ⟨false, (1, 0), (1, 0), none, 0⟩ []
      (by decide) (by decide) (by decide) (by decide),
   get_applied_rowsets_spec.2.2.2.1 exampleState 5 (1, 0)
      [⟨false, (1, 0), (1, 0), none, 0⟩] (by decide) (by decide),
   get_applied_rowsets_spec.2.2.2.2.1 5 (1, 0) ⟨false, (1, 0), (9, 0), none, 70000⟩ []
      (by decide) (by decide) (by decide) (by decide) (by decide),
   get_applied_rowsets_spec.2.2.2.2.2.1 exampleState 5 (1, 0)
      [⟨false, (1, 0), (9, 0), none, 70000⟩] (by decide) (by decide)⟩

theorem collect_dead_eq_filter (stats : List (Nat × RowsetStats)) :
    ∀ (rowsets : List Nat),
      (collect_candidates stats rowsets).1 = dead_candidates stats rowsets
  | [] => rfl
  | rid :: rest => by
    have ih := collect_dead_eq_filter stats rest
    simp only [collect_candidates, dead_candidates, List.filter_cons]
    cases hl : stats.lookup rid with
    | none =>
      simp only [hl]
      simpa [dead_candidates] using ih
    | some s =>
      simp only [hl]
      by_cases h1 : 0 < s.compaction_score
      · by_cases h2 : s.num_rows = s.num_dels
        · simp only [if_pos h1, if_pos h2]
          simp [h1, h2, dead_candidates, ih]
        · simp only [if_pos h1, if_neg h2]
          simp [h1, h2, dead_candidates, ih]
      · simp only [if_neg h1]
        simp [h1, dead_candidates, ih]

theorem greedy_pick_take :
    ∀ (l : List CompactionEntry) (h : Bool) (a b : Nat),
      ∃ k, greedy_pick h a b l = l.take k
  | [], _, _, _ => ⟨0, rfl⟩
  | e :: rest, h, a, b => by
    simp only [greedy_pick]
    by_cases hbrk : h = true ∧
        (a + e.num_rows - e.num_dels > compaction_result_rows_threashold * 3 / 2 ∨
         b + e.bytes * (e.num_rows - e.num_dels) / e.num_rows >
           compaction_result_bytes_threashold * 3 / 2)
    · exact ⟨0, by rw [if_pos hbrk]; rfl⟩
    · rw [if_neg hbrk]
      by_cases hstop : b + e.bytes * (e.num_rows - e.num_dels) / e.num_rows >
            compaction_result_bytes_threashold ∨
          a + e.num_rows - e.num_dels > compaction_result_rows_threashold
      · exact ⟨1, by rw [if_pos hstop]; rfl⟩
      · rw [if_neg hstop]
        obtain ⟨k, hk⟩ := greedy_pick_take rest true
          (a + e.num_rows - e.num_dels)
          (b + e.bytes * (e.num_rows - e.num_dels) / e.num_rows)
        exact ⟨k + 1, by rw [hk]; rfl⟩

theorem greedy_pick_bounds :
    ∀ (l : List CompactionEntry) (h : Bool) (t : Nat × Nat),
      (∀ j : Nat, j + 1 < (greedy_pick h t.1 t.2 l).length →
        withinThresholds (totalsAfter t ((greedy_pick h t.1 t.2 l).take (j + 1)))) ∧
      (∀ j : Nat, j < (greedy_pick h t.1 t.2 l).length → (h = true ∨ 0 < j) →
        withinSlack (totalsAfter t ((greedy_pick h t.1 t.2 l).take (j + 1))))
  | [], h, t => by
    constructor <;> intro j hj <;> simp [greedy_pick] at hj
  | e :: rest, h, t => by
    have hupd : ∀ xs, totalsAfter t (e :: xs)
        = totalsAfter (t.1 + e.num_rows - e.num_dels,
            t.2 + e.bytes * (e.num_rows - e.num_dels) / e.num_rows) xs :=
      fun xs => rfl
    simp only [greedy_pick]
    by_cases hbrk : h = true ∧
        (t.1 + e.num_rows - e.num_dels > compaction_result_rows_threashold * 3 / 2 ∨
         t.2 + e.bytes * (e.num_rows - e.num_dels) / e.num_rows >
           compaction_result_bytes_threashold * 3 / 2)
    · rw [if_pos hbrk]
      constructor <;> intro j hj <;> simp at hj
    · rw [if_neg hbrk]
      by_cases hstop : t.2 + e.bytes * (e.num_rows - e.num_dels) / e.num_rows >
            compaction_result_bytes_threashold ∨
          t.1 + e.num_rows - e.num_dels > compaction_result_rows_threashold
      · rw [if_pos hstop]
        constructor
        · intro j hj
          simp at hj
        · intro j hj hh
          have hj0 : j = 0 := by
            simp at hj
            omega
          subst hj0
          rcases hh with hh | hh
          · rw [List.take_succ_cons, List.take_zero, hupd []]
            have hnot : ¬ (t.1 + e.num_rows - e.num_dels >
                  compaction_result_rows_threashold * 3 / 2 ∨
                t.2 + e.bytes * (e.num_rows - e.num_dels) / e.num_rows >
                  compaction_result_bytes_threashold * 3 / 2) :=
              fun hc => hbrk ⟨hh, hc⟩
            push_neg at hnot
            exact ⟨hnot.1, hnot.2⟩
          · omega
      · rw [if_neg hstop]
        push_neg at hstop
        have ih := greedy_pick_bounds rest true
          (t.1 + e.num_rows - e.num_dels,
           t.2 + e.bytes * (e.num_rows - e.num_dels) / e.num_rows)
        constructor
        · intro j hj
          cases j with
          | zero =>
            rw [List.take_succ_cons, List.take_zero]
            rw [hupd []]
            exact ⟨hstop.2, hstop.1⟩
          | succ j' =>
            rw [List.take_succ_cons, hupd]
            exact ih.1 j' (by simpa using hj)
        · intro j hj hh
          cases j with
          | zero =>
            rw [List.take_succ_cons, List.take_zero, hupd []]
            rcases hh with hh | hh
            · have hnot : ¬ (t.1 + e.num_rows - e.num_dels >
                    compaction_result_rows_threashold * 3 / 2 ∨
                  t.2 + e.bytes * (e.num_rows - e.num_dels) / e.num_rows >
                    compaction_result_bytes_threashold * 3 / 2) :=
                fun hc => hbrk ⟨hh, hc⟩
              push_neg at hnot
              exact ⟨hnot.1, hnot.2⟩
            · omega
          | succ j' =>
            rw [List.take_succ_cons, hupd]
            exact ih.2 j' (by simpa using hj) (Or.inl rfl)

/-- C8, counterexample: with two candidates of identical stats (equal
`score_per_live_row`), both are picked and the pick order is NOT strictly
descending in `score_per_live_row` — `std::sort` uses the strict comparator
`score_per_row > rhs.score_per_row`, so ties make the order merely
non-increasing. -/
theorem compaction_pick_strict_descending_cex :
    compaction_pick [1, 2] twinStats = [1, 2] ∧
    compaction_greedy [1, 2] twinStats
      = [⟨⟨100, 50⟩, 1, 100, 50, 1000⟩, ⟨⟨100, 50⟩, 2, 100, 50, 1000⟩] ∧
    ¬ List.Chain'
        (fun a b : CompactionEntry => Score.flt b.score_per_row a.score_per_row)
        (compaction_greedy [1, 2] twinStats) := by
  have hg : compaction_greedy [1, 2] twinStats
      = [⟨⟨100, 50⟩, 1, 100, 50, 1000⟩, ⟨⟨100, 50⟩, 2, 100, 50, 1000⟩] := by decide
  refine ⟨by decide, hg, ?_⟩
  rw [hg]
  intro hc
  exact lt_irrefl _ (List.chain'_cons.mp hc).1

/-- C8, amended: in the selection sequence of `TabletUpdates::compaction`,
every fully dead candidate (positive score, `num_rows == num_dels`) is
included unconditionally before any other candidate; the remaining picks are
a prefix of the candidate list sorted in descending (non-increasing, ties in
unspecified order) `score_per_live_row` order, so the picked scores are
non-increasing; the loop never continues past the 1x row/byte thresholds
(every non-final pick leaves the estimate within them) and, once inputs are
non-empty, never admits a candidate pushing the estimate beyond the
1.5x-slack bounds. -/
theorem compaction_pick_spec (rowsets : List Nat)
    (stats : List (Nat × RowsetStats)) :
    (∃ k, compaction_pick rowsets stats
        = dead_candidates stats rowsets ++
          ((compaction_sorted_candidates rowsets stats).take k).map
            CompactionEntry.rowsetid) ∧
    List.Sorted entryGE (compaction_sorted_candidates rowsets stats) ∧
    List.Chain' entryGE (compaction_greedy rowsets stats) ∧
    (∀ j : Nat, j + 1 < (compaction_greedy rowsets stats).length →
      withinThresholds
        (totalsAfter (0, 0) ((compaction_greedy rowsets stats).take (j + 1)))) ∧
    (∀ j : Nat, j < (compaction_greedy rowsets stats).length →
      ((!(collect_candidates stats rowsets).1.isEmpty) = true ∨ 0 < j) →
      withinSlack
        (totalsAfter (0, 0) ((compaction_greedy rowsets stats).take (j + 1)))) := by
  have hsorted : List.Sorted entryGE (compaction_sorted_candidates rowsets stats) :=
    List.sorted_insertionSort entryGE _
  obtain ⟨k, hk⟩ := greedy_pick_take (compaction_sorted_candidates rowsets stats)
    (!(collect_candidates stats rowsets).1.isEmpty) 0 0
  have hg : compaction_greedy rowsets stats
      = (compaction_sorted_candidates rowsets stats).take k := hk
  have hbounds := greedy_pick_bounds (compaction_sorted_candidates rowsets stats)
    (!(collect_candidates stats rowsets).1.isEmpty) (0, 0)
  refine ⟨⟨k, ?_⟩, hsorted, ?_, hbounds.1, hbounds.2⟩
  · rw [show compaction_pick rowsets stats = (collect_candidates stats rowsets).1 ++
        (compaction_greedy rowsets stats).map CompactionEntry.rowsetid from rfl,
      collect_dead_eq_filter stats rowsets, hg]
  · rw [hg]
    exact List.Pairwise.chain'
      (List.Pairwise.sublist (List.take_sublist k _) hsorted)

/-- Concrete run of the amended C8 on `witStats`: the fully dead rowset 3 is
picked first, then the candidates in descending score-per-live-row order
(rowset 2 with score 90 before rowset 1 with score 4), all within bounds. -/
theorem compaction_pick_spec_witness :
    compaction_pick [1, 2, 3] witStats = [3, 2, 1] ∧
    withinThresholds
      (totalsAfter (0, 0) ((compaction_greedy [1, 2, 3] witStats).take 1)) ∧
    withinSlack
      (totalsAfter (0, 0) ((compaction_greedy [1, 2, 3] witStats).take 1)) :=
  ⟨by decide,
   (compaction_pick_spec [1, 2, 3] witStats).2.2.2.1 0 (by decide),
   (compaction_pick_spec [1, 2, 3] witStats).2.2.2.2 0 (by decide)
     (Or.inl (by decide))⟩

end StarRocks

namespace StarRocksJoin

/-! ### Hash-join theorems -/

section JoinChainProofs

variable {κ : Type}

theorem chainWalk_zero (t : HashTable) : ∀ fuel, chainWalk t fuel 0 = []
  | 0 => rfl
  | _ + 1 => by simp [chainWalk]

theorem chainWalk_congr_fuel (t : HashTable) (hd : Decr t) :
    ∀ (i fuel fuel' : Nat), i ≤ fuel → i ≤ fuel' →
      chainWalk t fuel i = chainWalk t fuel' i := by
  intro i
  induction i using Nat.strong_induction_on with
  | _ i ih =>
    intro fuel fuel' h1 h2
    cases i with
    | zero => rw [chainWalk_zero, chainWalk_zero]
    | succ n =>
      obtain ⟨f, rfl⟩ : ∃ f, fuel = f + 1 := ⟨fuel - 1, by omega⟩
      obtain ⟨f', rfl⟩ : ∃ f', fuel' = f' + 1 := ⟨fuel' - 1, by omega⟩
      simp only [chainWalk]
      rw [if_neg (Nat.succ_ne_zero n), if_neg (Nat.succ_ne_zero n)]
      have hn := hd (n + 1) (by omega)
      congr 1
      exact ih (t.nextIdx (n + 1)) (by omega) f f' (by omega) (by omega)

theorem chainWalk_congr (t t' : HashTable) (hd : Decr t) (N : Nat)
    (hagree : ∀ j, j ≤ N → t.nextIdx j = t'.nextIdx j) :
    ∀ (fuel i : Nat), i ≤ N → chainWalk t fuel i = chainWalk t' fuel i := by
  intro fuel
  induction fuel with
  | zero => intro i _; rfl
  | succ f ihf =>
    intro i hi
    by_cases h0 : i = 0
    · subst h0
      rw [chainWalk_zero, chainWalk_zero]
    · simp only [chainWalk]
      rw [if_neg h0, if_neg h0]
      have hlt : t.nextIdx i < i := hd i (by omega)
      rw [← hagree i hi]
      congr 1
      exact ihf (t.nextIdx i) (by omega)

theorem chainWalk_mem_le (t : HashTable) (hd : Decr t) :
    ∀ (fuel i j : Nat), j ∈ chainWalk t fuel i → 1 ≤ j ∧ j ≤ i := by
  intro fuel
  induction fuel with
  | zero =>
    intro i j hj
    simp [chainWalk] at hj
  | succ f ihf =>
    intro i j hj
    simp only [chainWalk] at hj
    by_cases h0 : i = 0
    · rw [if_pos h0] at hj
      simp at hj
    · rw [if_neg h0] at hj
      rcases List.mem_cons.mp hj with rfl | hj'
      · omega
      · have hb := ihf (t.nextIdx i) j hj'
        have hlt : t.nextIdx i < i := hd i (by omega)
        omega

theorem buildAux_chains (bucketOf : κ → Nat) :
    ∀ (ks : List (Option κ)) (i : Nat) (t : HashTable),
      1 ≤ i → Decr t → HeadsLT t i →
      Decr (buildAux bucketOf i ks t) ∧
      HeadsLT (buildAux bucketOf i ks t) (i + ks.length) ∧
      (∀ j, j < i → (buildAux bucketOf i ks t).nextIdx j = t.nextIdx j) ∧
      (∀ b, bucketChain (buildAux bucketOf i ks t) b
        = (rowsToBucket bucketOf i ks b).reverse ++ bucketChain t b)
  | [], i, t => fun _ hd hh =>
    ⟨hd, by simpa [buildAux] using hh, fun _ _ => rfl,
     fun b => by simp [buildAux, rowsToBucket]⟩
  | none :: rest, i, t => fun hi hd hh => by
    have ih := buildAux_chains bucketOf rest (i + 1) t (by omega) hd
      (fun b => (hh b).trans (by omega))
    refine ⟨ih.1, ?_, ?_, ?_⟩
    · intro b
      have := ih.2.1 b
      simp only [List.length_cons]
      simp only [buildAux]
      omega
    · intro j hj
      exact ih.2.2.1 j (by omega)
    · intro b
      show bucketChain (buildAux bucketOf (i + 1) rest t) b = _
      rw [ih.2.2.2 b]
      simp [rowsToBucket]
  | some k :: rest, i, t => fun hi hd hh => by
    set t' := insertRow t (bucketOf k) i with ht'
    have hd' : Decr t' := by
      intro j hj
      show (if j = i then t.firstIdx (bucketOf k) else t.nextIdx j) < j
      by_cases hji : j = i
      · rw [if_pos hji, hji]
        exact hh (bucketOf k)
      · rw [if_neg hji]
        exact hd j hj
    have hh' : HeadsLT t' (i + 1) := by
      intro b
      show (if b = bucketOf k then i else t.firstIdx b) < i + 1
      by_cases hb : b = bucketOf k
      · rw [if_pos hb]
        omega
      · rw [if_neg hb]
        exact (hh b).trans (by omega)
    have hagree : ∀ j, j ≤ i - 1 → t.nextIdx j = t'.nextIdx j := by
      intro j hj
      show t.nextIdx j = (if j = i then t.firstIdx (bucketOf k) else t.nextIdx j)
      rw [if_neg (by omega)]
    have ih := buildAux_chains bucketOf rest (i + 1) t' (by omega) hd' hh'
    refine ⟨ih.1, ?_, ?_, ?_⟩
    · intro b
      have hgoal := ih.2.1 b
      show (buildAux bucketOf (i + 1) rest t').firstIdx b < i + (some k :: rest).length
      simp only [List.length_cons] at hgoal ⊢
      omega
    · intro j hj
      have h1 := ih.2.2.1 j (by omega)
      have h2 : t'.nextIdx j = t.nextIdx j := (hagree j (by omega)).symm
      show (buildAux bucketOf (i + 1) rest t').nextIdx j = t.nextIdx j
      rw [h1, h2]
    · intro b
      show bucketChain (buildAux bucketOf (i + 1) rest t') b = _
      rw [ih.2.2.2 b]
      by_cases hb : bucketOf k = b
      · have hfirst : t'.firstIdx b = i := by
          show (if b = bucketOf k then i else t.firstIdx b) = i
          rw [if_pos hb.symm]
        have hnext : t'.nextIdx i = t.firstIdx (bucketOf k) := by
          show (if i = i then t.firstIdx (bucketOf k) else t.nextIdx i) = _
          rw [if_pos rfl]
        have hchain' : bucketChain t' b = i :: bucketChain t b := by
          unfold bucketChain
          rw [hfirst]
          obtain ⟨m, rfl⟩ : ∃ m, i = m + 1 := ⟨i - 1, by omega⟩
          simp only [chainWalk]
          rw [if_neg (Nat.succ_ne_zero m), hnext]
          congr 1
          have hcg : chainWalk t m (t.firstIdx (bucketOf k))
              = chainWalk t' m (t.firstIdx (bucketOf k)) :=
            chainWalk_congr t t' hd m hagree m (t.firstIdx (bucketOf k))
              (by have := hh (bucketOf k); omega)
          rw [← hcg, hb]
          exact chainWalk_congr_fuel t hd (t.firstIdx b) m (t.firstIdx b)
            (by have := hh b; omega) (le_refl _)
        rw [hchain']
        simp only [rowsToBucket, if_pos hb]
        simp
      · have hfirst : t'.firstIdx b = t.firstIdx b := by
          show (if b = bucketOf k then i else t.firstIdx b) = t.firstIdx b
          rw [if_neg (fun hc => hb hc.symm)]
        have hchain' : bucketChain t' b = bucketChain t b := by
          unfold bucketChain
          rw [hfirst]
          exact (chainWalk_congr t t' hd (i - 1) hagree (t.firstIdx b) (t.firstIdx b)
            (by have := hh b; omega)).symm
        rw [hchain']
        simp only [rowsToBucket, if_neg hb]
        simp

end JoinChainProofs

end StarRocksJoin

namespace StarRocksJoin

section JoinKeyProofs

variable {κ : Type} [DecidableEq κ]

theorem emptyTable_decr (n : Nat) : Decr (emptyTable n) := by
  intro j hj
  show 0 < j
  omega

theorem construct_chains (bucketOf : κ → Nat) (keys : List (Option κ)) (b : Nat) :
    bucketChain (construct_hash_table bucketOf keys) b
      = (rowsToBucket bucketOf 1 keys b).reverse := by
  have h := buildAux_chains bucketOf keys 1 (emptyTable keys.length)
    (le_refl 1) (emptyTable_decr _) (fun b => Nat.zero_lt_one)
  have hb := h.2.2.2 b
  unfold construct_hash_table
  rw [hb]
  have hnil : bucketChain (emptyTable keys.length) b = [] := rfl
  rw [hnil, List.append_nil]

theorem rowsToBucket_mem_fwd (bucketOf : κ → Nat) :
    ∀ (ks : List (Option κ)) (i b j : Nat), j ∈ rowsToBucket bucketOf i ks b →
      ∃ k idx, ks.get? idx = some (some k) ∧ bucketOf k = b ∧ j = i + idx
  | [], i, b, j => by simp [rowsToBucket]
  | none :: rest, i, b, j => fun hj => by
    obtain ⟨k, idx, h1, h2, h3⟩ := rowsToBucket_mem_fwd bucketOf rest (i + 1) b j hj
    exact ⟨k, idx + 1, by simpa using h1, h2, by omega⟩
  | some k0 :: rest, i, b, j => fun hj => by
    simp only [rowsToBucket] at hj
    rcases List.mem_append.mp hj with h | h
    · by_cases hbk : bucketOf k0 = b
      · rw [if_pos hbk] at h
        simp only [List.mem_singleton] at h
        exact ⟨k0, 0, by simp, hbk, by omega⟩
      · rw [if_neg hbk] at h
        simp at h
    · obtain ⟨k, idx, h1, h2, h3⟩ := rowsToBucket_mem_fwd bucketOf rest (i + 1) b j h
      exact ⟨k, idx + 1, by simpa using h1, h2, by omega⟩

theorem rowsToBucket_filter_key (bucketOf : κ → Nat) (keys0 : List (Option κ)) (k : κ) :
    ∀ (ks : List (Option κ)) (i : Nat), 1 ≤ i →
      (∀ idx, ks.get? idx = keys0.get? (i - 1 + idx)) →
      (rowsToBucket bucketOf i ks (bucketOf k)).filter
          (fun j => keys0.get? (j - 1) == some (some k))
        = rowsWithKeyAux k i ks
  | [], i => fun _ _ => by simp [rowsToBucket, rowsWithKeyAux]
  | none :: rest, i => fun hi halign => by
    have halign' : ∀ idx, rest.get? idx = keys0.get? ((i + 1) - 1 + idx) := by
      intro idx
      have h := halign (idx + 1)
      rw [List.get?_cons_succ] at h
      rw [h]
      congr 1
      omega
    simp only [rowsToBucket, rowsWithKeyAux]
    rw [rowsToBucket_filter_key bucketOf keys0 k rest (i + 1) (by omega) halign']
    simp
  | some k0 :: rest, i => fun hi halign => by
    have halign' : ∀ idx, rest.get? idx = keys0.get? ((i + 1) - 1 + idx) := by
      intro idx
      have h := halign (idx + 1)
      rw [List.get?_cons_succ] at h
      rw [h]
      congr 1
      omega
    have hhead : keys0.get? (i - 1) = some (some k0) := by
      have h := (halign 0).symm
      simpa using h
    rw [List.get?_eq_getElem?] at hhead
    simp only [rowsToBucket, rowsWithKeyAux]
    rw [List.filter_append]
    rw [rowsToBucket_filter_key bucketOf keys0 k rest (i + 1) (by omega) halign']
    congr 1
    by_cases hk : k0 = k
    · subst hk
      rw [if_pos rfl, if_pos rfl]
      simp [List.filter, hhead]
    · rw [if_neg (fun hc : (some k0 : Option κ) = some k => hk (Option.some.inj hc))]
      by_cases hbk : bucketOf k0 = bucketOf k
      · rw [if_pos hbk]
        simp [List.filter, hhead, beq_false_of_ne hk]
      · rw [if_neg hbk]
        rfl

theorem matchesOf_construct (bucketOf : κ → Nat) (keys : List (Option κ)) (k : κ) :
    matchesOf (construct_hash_table bucketOf keys) keys bucketOf k
      = (rowsWithKey k keys).reverse := by
  unfold matchesOf rowsWithKey
  rw [construct_chains, List.filter_reverse]
  rw [rowsToBucket_filter_key bucketOf keys k keys 1 (le_refl 1)
    (fun idx => by norm_num)]

/-- C6: for every build-side key column and every key-encoding strategy
(the bucket function `bucketOf` composes the strategy's encoding, hash and
mask and is universally quantified), a null build key is never inserted into
any bucket chain: walking the `first[]`/`next[]` chains from any bucket
visits only rows whose key is non-null (and which hash to that bucket), so
probing any value can only match build rows with non-null keys. -/
theorem null_keys_never_in_chain (bucketOf : κ → Nat) (keys : List (Option κ)) :
    (∀ b j, j ∈ bucketChain (construct_hash_table bucketOf keys) b →
      ∃ k, keys.get? (j - 1) = some (some k) ∧ bucketOf k = b) ∧
    (∀ k j, j ∈ matchesOf (construct_hash_table bucketOf keys) keys bucketOf k →
      keys.get? (j - 1) = some (some k)) := by
  constructor
  · intro b j hj
    rw [construct_chains, List.mem_reverse] at hj
    obtain ⟨k, idx, h1, h2, h3⟩ := rowsToBucket_mem_fwd bucketOf keys 1 b j hj
    refine ⟨k, ?_, h2⟩
    rw [h3]
    simpa using h1
  · intro k j hj
    unfold matchesOf at hj
    have h := List.of_mem_filter hj
    simpa using h

end JoinKeyProofs

/-- Concrete run of C6: build keys `[some 0, none, some 2, none]` (odd rows
null, as in the nullable-column tests) hashed by `k % 8`; row 1 sits in
bucket 0's chain and indeed carries the non-null key 0 hashing to bucket 0. -/
theorem null_keys_never_in_chain_witness :
    (1 : Nat) ∈ bucketChain
      (construct_hash_table (fun k : Nat => k % 8) [some 0, none, some 2, none]) 0 ∧
    ∃ k, ([some 0, none, some 2, none] : List (Option Nat)).get? (1 - 1)
        = some (some k) ∧ k % 8 = 0 :=
  ⟨by decide,
   (null_keys_never_in_chain (fun k : Nat => k % 8) [some 0, none, some 2, none]).1
     0 1 (by decide)⟩

end StarRocksJoin

namespace StarRocksJoin

theorem restPairs_zero :
    ∀ (base : Nat) (ms : List (List Nat)), restPairs base 0 ms = pairsOf base ms
  | _, [] => rfl
  | base, m :: rest => by simp [restPairs, pairsOf]

theorem probeStepAux_pairs :
    ∀ (ms : List (List Nat)) (base skip budget : Nat),
      (probeStepAux base skip budget ms).pairs
        = (restPairs base skip ms).take budget
  | [], base, skip, budget => by simp [probeStepAux, restPairs]
  | m :: rest, base, skip, budget => by
    simp only [probeStepAux, restPairs]
    by_cases hb : budget < (m.drop skip).length
    · rw [if_pos hb]
      rw [List.take_append_eq_append_take]
      have hlen : ((m.drop skip).map (fun bi => (base, bi))).length
          = (m.drop skip).length := by simp
      rw [hlen, Nat.sub_eq_zero_of_le (le_of_lt hb), List.take_zero,
        List.append_nil, List.map_take]
    · rw [if_neg hb]
      push_neg at hb
      show ((m.drop skip).map (fun bi => (base, bi)))
          ++ (probeStepAux (base + 1) 0 (budget - (m.drop skip).length) rest).pairs = _
      rw [probeStepAux_pairs rest (base + 1) 0 (budget - (m.drop skip).length)]
      rw [restPairs_zero]
      rw [List.take_append_eq_append_take]
      have hlen : ((m.drop skip).map (fun bi => (base, bi))).length
          = (m.drop skip).length := by simp
      rw [hlen]
      congr 1
      exact (List.take_of_length_le (by simpa using hb)).symm

theorem probeStepAux_has_remain :
    ∀ (ms : List (List Nat)) (base skip budget : Nat),
      (probeStepAux base skip budget ms).has_remain = true
        ↔ budget < (restPairs base skip ms).length
  | [], base, skip, budget => by simp [probeStepAux, restPairs]
  | m :: rest, base, skip, budget => by
    simp only [probeStepAux, restPairs]
    by_cases hb : budget < (m.drop skip).length
    · rw [if_pos hb]
      simp only [List.length_append, List.length_map]
      constructor
      · intro _
        omega
      · intro _
        trivial
    · rw [if_neg hb]
      push_neg at hb
      show (probeStepAux (base + 1) 0 (budget - (m.drop skip).length) rest).has_remain
          = true ↔ _
      rw [probeStepAux_has_remain rest (base + 1) 0 (budget - (m.drop skip).length)]
      rw [restPairs_zero]
      simp only [List.length_append, List.length_map]
      omega

theorem probeStepAux_drained :
    ∀ (ms : List (List Nat)) (base skip budget : Nat),
      (probeStepAux base skip budget ms).has_remain = false →
      (probeStepAux base skip budget ms).cur_probe_index = 0 ∧
      (probeStepAux base skip budget ms).cur_row_match_count = 0
  | [], _, _, _ => fun _ => ⟨rfl, rfl⟩
  | m :: rest, base, skip, budget => by
    simp only [probeStepAux]
    by_cases hb : budget < (m.drop skip).length
    · rw [if_pos hb]
      intro h
      cases h
    · rw [if_neg hb]
      intro h
      exact probeStepAux_drained rest (base + 1) 0 (budget - (m.drop skip).length) h

theorem probeStepAux_resume :
    ∀ (ms : List (List Nat)) (base skip budget : Nat),
      (probeStepAux base skip budget ms).has_remain = true →
      base ≤ (probeStepAux base skip budget ms).cur_probe_index ∧
      restPairs (probeStepAux base skip budget ms).cur_probe_index
          (probeStepAux base skip budget ms).cur_row_match_count
          (ms.drop ((probeStepAux base skip budget ms).cur_probe_index - base))
        = (restPairs base skip ms).drop budget
  | [], base, skip, budget => by
    intro h
    cases h
  | m :: rest, base, skip, budget => by
    simp only [probeStepAux]
    by_cases hb : budget < (m.drop skip).length
    · rw [if_pos hb]
      intro _
      refine ⟨le_refl base, ?_⟩
      simp only [Nat.sub_self, List.drop_zero]
      simp only [restPairs]
      rw [List.drop_append_eq_append_drop]
      have hlen : ((m.drop skip).map (fun bi => (base, bi))).length
          = (m.drop skip).length := by simp
      rw [hlen, Nat.sub_eq_zero_of_le (le_of_lt hb), List.drop_zero]
      congr 1
      rw [← List.map_drop, List.drop_drop]
    · rw [if_neg hb]
      push_neg at hb
      dsimp only
      intro h
      have ih := probeStepAux_resume rest (base + 1) 0
        (budget - (m.drop skip).length) h
      refine ⟨by omega, ?_⟩
      have hdec : (probeStepAux (base + 1) 0 (budget - (m.drop skip).length)
          rest).cur_probe_index - base
          = ((probeStepAux (base + 1) 0 (budget - (m.drop skip).length)
              rest).cur_probe_index - (base + 1)) + 1 := by
        have := ih.1
        omega
      rw [hdec, List.drop_succ_cons, ih.2, restPairs_zero]
      show (pairsOf (base + 1) rest).drop (budget - (m.drop skip).length)
          = (restPairs base skip (m :: rest)).drop budget
      simp only [restPairs]
      rw [List.drop_append_eq_append_drop]
      have hlen : ((m.drop skip).map (fun bi => (base, bi))).length
          = (m.drop skip).length := by simp
      rw [hlen]
      have hnil : ((m.drop skip).map (fun bi => (base, bi))).drop budget = [] :=
        List.drop_eq_nil_of_le (by simpa using hb)
      rw [hnil, List.nil_append]

end StarRocksJoin

namespace StarRocksJoin

theorem probe_calls_spec (chunk : Nat) (hchunk : 0 < chunk) (ms : List (List Nat)) :
    ∀ (fuel cpi crmc : Nat),
      (restPairs cpi crmc (ms.drop cpi)).length < fuel →
      (((probe_calls chunk ms fuel cpi crmc).map ProbeOut.pairs).flatten
          = restPairs cpi crmc (ms.drop cpi)) ∧
      probe_calls chunk ms fuel cpi crmc ≠ [] ∧
      (∀ idx, idx + 1 < (probe_calls chunk ms fuel cpi crmc).length →
        ((probe_calls chunk ms fuel cpi crmc).getD idx default).has_remain = true) ∧
      (∀ c ∈ (probe_calls chunk ms fuel cpi crmc).getLast?,
        c.has_remain = false ∧ c.cur_probe_index = 0 ∧ c.cur_row_match_count = 0) ∧
      (chunk < (restPairs cpi crmc (ms.drop cpi)).length →
        2 ≤ (probe_calls chunk ms fuel cpi crmc).length) := by
  intro fuel
  induction fuel with
  | zero =>
    intro cpi crmc hf
    omega
  | succ f ihf =>
    intro cpi crmc hf
    simp only [probe_calls]
    by_cases hrem : (probeStepAux cpi crmc chunk (ms.drop cpi)).has_remain = true
    · have hres := probeStepAux_resume (ms.drop cpi) cpi crmc chunk hrem
      have hlt : chunk < (restPairs cpi crmc (ms.drop cpi)).length :=
        (probeStepAux_has_remain (ms.drop cpi) cpi crmc chunk).mp hrem
      set ci := (probeStepAux cpi crmc chunk (ms.drop cpi)).cur_probe_index with hci
      set cc := (probeStepAux cpi crmc chunk (ms.drop cpi)).cur_row_match_count with hcc
      have hdd : (ms.drop cpi).drop (ci - cpi) = ms.drop ci := by
        rw [List.drop_drop]
        congr 1
        have := hres.1
        omega
      have hnext : restPairs ci cc (ms.drop ci)
          = (restPairs cpi crmc (ms.drop cpi)).drop chunk := by
        rw [← hdd]
        exact hres.2
      have hflen : (restPairs ci cc (ms.drop ci)).length < f := by
        rw [hnext, List.length_drop]
        omega
      have ih := ihf ci cc hflen
      rw [if_pos hrem]
      refine ⟨?_, by simp, ?_, ?_, ?_⟩
      · rw [List.map_cons, List.flatten_cons]
        rw [probeStepAux_pairs, ih.1, hnext, List.take_append_drop]
      · intro idx hidx
        cases idx with
        | zero => simpa using hrem
        | succ idx' =>
          simp only [List.getD_cons_succ]
          exact ih.2.2.1 idx' (by simpa using hidx)
      · intro c hc
        rcases hcl : probe_calls chunk ms f ci cc with _ | ⟨c0, cs⟩
        · exact absurd hcl ih.2.1
        · rw [hcl] at hc
          rw [List.getLast?_cons_cons] at hc
          refine ih.2.2.2.1 c ?_
          rw [hcl]
          exact hc
      · intro _
        rcases hcl : probe_calls chunk ms f ci cc with _ | ⟨c0, cs⟩
        · exact absurd hcl ih.2.1
        · simp only [List.length_cons]
          omega
    · have hle : ¬ chunk < (restPairs cpi crmc (ms.drop cpi)).length := by
        intro hc
        exact hrem ((probeStepAux_has_remain (ms.drop cpi) cpi crmc chunk).mpr hc)
      rw [if_neg hrem]
      have hdr := probeStepAux_drained (ms.drop cpi) cpi crmc chunk
        (Bool.not_eq_true _ ▸ (by simpa using hrem))
      refine ⟨?_, by simp, ?_, ?_, fun hc => absurd hc hle⟩
      · rw [List.map_cons, List.map_nil, List.flatten_cons, List.flatten_nil]
        rw [probeStepAux_pairs]
        rw [List.take_of_length_le (by omega), List.append_nil]
      · intro idx hidx
        simp at hidx
      · intro c hc
        simp only [List.getLast?_singleton, Option.mem_def, Option.some.injEq] at hc
        subst hc
        exact ⟨by simpa using hrem, hdr.1, hdr.2⟩

end StarRocksJoin

namespace StarRocksJoin

/-- C4: for every probe batch (any built hash table, any key-encoding
strategy via `bucketOf`, any probe keys) with a positive output chunk size,
the repeated probe calls emit every `(probe_index, build_index)` pair exactly
once and in probe-row order across the calls; each non-final call sets
`has_remain = true` and records the resumption cursors `cur_probe_index` and
`cur_row_match_count` from which the next call resumes exactly where the
previous one stopped mid-chain; the final call sets `has_remain = false`
with both cursors reset to zero; and a total match count exceeding the chunk
size forces more than one call. -/
theorem probe_skew_resumption {κ : Type} [DecidableEq κ] (t : HashTable)
    (keys : List (Option κ)) (bucketOf : κ → Nat) (probeKeys : List κ)
    (chunk : Nat) (hchunk : 0 < chunk) :
    (((probe_drain_calls t keys bucketOf probeKeys chunk).map
        ProbeOut.pairs).flatten = allPairs t keys bucketOf probeKeys) ∧
    probe_drain_calls t keys bucketOf probeKeys chunk ≠ [] ∧
    (∀ idx, idx + 1 < (probe_drain_calls t keys bucketOf probeKeys chunk).length →
      ((probe_drain_calls t keys bucketOf probeKeys chunk).getD idx
        default).has_remain = true) ∧
    (∀ c ∈ (probe_drain_calls t keys bucketOf probeKeys chunk).getLast?,
      c.has_remain = false ∧ c.cur_probe_index = 0 ∧ c.cur_row_match_count = 0) ∧
    (chunk < (allPairs t keys bucketOf probeKeys).length →
      2 ≤ (probe_drain_calls t keys bucketOf probeKeys chunk).length) := by
  have hrw : restPairs 0 0 ((probeKeys.map (matchesOf t keys bucketOf)).drop 0)
      = allPairs t keys bucketOf probeKeys := by
    rw [List.drop_zero, restPairs_zero]
    rfl
  have h := probe_calls_spec chunk hchunk
    (probeKeys.map (matchesOf t keys bucketOf))
    ((allPairs t keys bucketOf probeKeys).length + 1) 0 0 (by rw [hrw]; omega)
  rw [hrw] at h
  exact h

/-- Concrete run of C4: build keys `[0, 1, 0, 1]` (each probe key matches two
build rows, 4 total matches) drained with chunk size 3 — every pair is
emitted exactly once across the two calls. -/
theorem probe_skew_resumption_witness :
    (0 : Nat) < 3 ∧
    ((probe_drain_calls
        (construct_hash_table (fun k : Nat => k % 8) [some 0, some 1, some 0, some 1])
        [some 0, some 1, some 0, some 1] (fun k : Nat => k % 8) [0, 1] 3).map
      ProbeOut.pairs).flatten
      = allPairs (construct_hash_table (fun k : Nat => k % 8)
          [some 0, some 1, some 0, some 1])
          [some 0, some 1, some 0, some 1] (fun k : Nat => k % 8) [0, 1] :=
  ⟨Nat.zero_lt_succ 2,
   (probe_skew_resumption
      (construct_hash_table (fun k : Nat => k % 8) [some 0, some 1, some 0, some 1])
      [some 0, some 1, some 0, some 1] (fun k : Nat => k % 8) [0, 1] 3
      (by decide)).1⟩

section RoundTrip

variable {κ : Type} [DecidableEq κ]

theorem rowsWithKeyAux_nil_of_not_mem (k : κ) :
    ∀ (rest : List κ) (start : Nat), k ∉ rest →
      rowsWithKeyAux k start (rest.map some) = []
  | [], _, _ => rfl
  | a :: rest, start, hk => by
    have hka : (some a : Option κ) ≠ some k :=
      fun h => hk (Option.some.inj h ▸ List.mem_cons_self a rest)
    simp only [List.map_cons, rowsWithKeyAux]
    rw [if_neg hka, rowsWithKeyAux_nil_of_not_mem k rest (start + 1)
      (fun h => hk (List.mem_cons_of_mem a h))]
    rfl

theorem rowsWithKeyAux_nodup (k : κ) :
    ∀ (keys : List κ) (start i : Nat) (hi : i < keys.length),
      keys.Nodup → keys.get ⟨i, hi⟩ = k →
      rowsWithKeyAux k start (keys.map some) = [start + i]
  | a :: rest, start, 0, hi => fun hnd hget => by
    have ha : a = k := hget
    subst ha
    simp only [List.map_cons, rowsWithKeyAux]
    rw [if_pos trivial]
    rw [rowsWithKeyAux_nil_of_not_mem a rest (start + 1)
      (List.nodup_cons.mp hnd).1]
    simp
  | a :: rest, start, i + 1, hi => fun hnd hget => by
    have hget' : rest.get ⟨i, by simpa using hi⟩ = k := hget
    have hrec := rowsWithKeyAux_nodup k rest (start + 1) i (by simpa using hi)
      (List.nodup_cons.mp hnd).2 hget'
    simp only [List.map_cons, rowsWithKeyAux]
    have hka : (some a : Option κ) ≠ some k := by
      intro h
      have ha : a = k := Option.some.inj h
      have hmem : k ∈ rest := by
        rw [← hget']
        exact rest.get_mem _ _
      exact (List.nodup_cons.mp hnd).1 (ha ▸ hmem)
    rw [if_neg hka, hrec]
    simp only [List.nil_append]
    congr 1
    omega

theorem matchesOf_construct_nodup (bucketOf : κ → Nat) (keys : List κ)
    (hnd : keys.Nodup) (i : Nat) (hi : i < keys.length) :
    matchesOf (construct_hash_table bucketOf (keys.map some)) (keys.map some)
        bucketOf (keys.get ⟨i, hi⟩)
      = [i + 1] := by
  rw [matchesOf_construct]
  unfold rowsWithKey
  rw [rowsWithKeyAux_nodup (keys.get ⟨i, hi⟩) keys 1 i hi hnd rfl]
  simp [Nat.add_comm]

theorem probe_ms_round_trip (bucketOf : κ → Nat) (keys : List κ)
    (hnd : keys.Nodup) :
    keys.map (matchesOf (construct_hash_table bucketOf (keys.map some))
        (keys.map some) bucketOf)
      = (List.range keys.length).map (fun i => [i + 1]) := by
  apply List.ext_get
  · simp
  · intro i h1 h2
    rw [List.get_map, List.get_map]
    rw [matchesOf_construct_nodup bucketOf keys hnd i (by simpa using h1)]
    rw [List.get_range]

end RoundTrip

theorem pairsOf_range_singletons :
    ∀ (cnt s : Nat), pairsOf s ((List.range' s cnt).map (fun i => [i + 1]))
      = (List.range' s cnt).map (fun i => (i, i + 1))
  | 0, s => rfl
  | cnt + 1, s => by
    rw [List.range'_succ]
    simp only [List.map_cons, pairsOf]
    rw [pairsOf_range_singletons cnt (s + 1)]
    simp

end StarRocksJoin

namespace StarRocksJoin

theorem probe_round_trip_general (bucketOf : Nat → Nat) (n chunk : Nat)
    (hchunk : n ≤ chunk) :
    (probe_from_ht (construct_hash_table bucketOf ((List.range n).map some))
        ((List.range n).map some) bucketOf (List.range n) chunk 0 0).pairs
      = (List.range n).map (fun i => (i, i + 1)) ∧
    (probe_from_ht (construct_hash_table bucketOf ((List.range n).map some))
        ((List.range n).map some) bucketOf (List.range n) chunk 0 0).pairs.length
      = n ∧
    (probe_from_ht (construct_hash_table bucketOf ((List.range n).map some))
        ((List.range n).map some) bucketOf (List.range n) chunk 0 0).has_remain
      = false ∧
    (probe_from_ht (construct_hash_table bucketOf ((List.range n).map some))
        ((List.range n).map some) bucketOf (List.range n) chunk 0 0).cur_probe_index
      = 0 ∧
    (probe_from_ht (construct_hash_table bucketOf ((List.range n).map some))
        ((List.range n).map some) bucketOf
        (List.range n) chunk 0 0).cur_row_match_count = 0 ∧
    matchFlagOf ((List.range n).map
        (matchesOf (construct_hash_table bucketOf ((List.range n).map some))
          ((List.range n).map some) bucketOf))
      = JoinMatchFlag.ALL_MATCH_ONE := by
  have hms : (List.range n).map
      (matchesOf (construct_hash_table bucketOf ((List.range n).map some))
        ((List.range n).map some) bucketOf)
      = (List.range n).map (fun i => [i + 1]) := by
    have h := probe_ms_round_trip bucketOf (List.range n) (List.nodup_range n)
    simpa using h
  have hpairs : pairsOf 0 ((List.range n).map (fun i => [i + 1]))
      = (List.range n).map (fun i => (i, i + 1)) := by
    rw [List.range_eq_range']
    exact pairsOf_range_singletons n 0
  have hrest : restPairs 0 0 ((List.range n).map (fun i => [i + 1]))
      = (List.range n).map (fun i => (i, i + 1)) := by
    rw [restPairs_zero, hpairs]
  have hlen : (restPairs 0 0 ((List.range n).map (fun i => [i + 1]))).length = n := by
    rw [hrest]
    simp
  have hdrop : (((List.range n).map
      (matchesOf (construct_hash_table bucketOf ((List.range n).map some))
        ((List.range n).map some) bucketOf)).drop 0)
      = (List.range n).map (fun i => [i + 1]) := by
    rw [List.drop_zero, hms]
  have hrem : (probeStepAux 0 0 chunk ((List.range n).map (fun i => [i + 1]))).has_remain
      = false := by
    have h := probeStepAux_has_remain ((List.range n).map (fun i => [i + 1])) 0 0 chunk
    rw [hlen] at h
    rcases hb : (probeStepAux 0 0 chunk ((List.range n).map (fun i => [i + 1]))).has_remain with _ | _
    · rfl
    · exact absurd (h.mp hb) (by omega)
  have hdr := probeStepAux_drained ((List.range n).map (fun i => [i + 1])) 0 0 chunk hrem
  have hp : (probeStepAux 0 0 chunk ((List.range n).map (fun i => [i + 1]))).pairs
      = (List.range n).map (fun i => (i, i + 1)) := by
    rw [probeStepAux_pairs, hrest]
    exact List.take_of_length_le (by simpa using hchunk)
  refine ⟨?_, ?_, ?_, ?_, ?_, ?_⟩
  · show (probeStepAux 0 0 chunk (((List.range n).map
        (matchesOf (construct_hash_table bucketOf ((List.range n).map some))
          ((List.range n).map some) bucketOf)).drop 0)).pairs = _
    rw [hdrop, hp]
  · show (probeStepAux 0 0 chunk (((List.range n).map
        (matchesOf (construct_hash_table bucketOf ((List.range n).map some))
          ((List.range n).map some) bucketOf)).drop 0)).pairs.length = _
    rw [hdrop, hp]
    simp
  · show (probeStepAux 0 0 chunk (((List.range n).map
        (matchesOf (construct_hash_table bucketOf ((List.range n).map some))
          ((List.range n).map some) bucketOf)).drop 0)).has_remain = _
    rw [hdrop, hrem]
  · show (probeStepAux 0 0 chunk (((List.range n).map
        (matchesOf (construct_hash_table bucketOf ((List.range n).map some))
          ((List.range n).map some) bucketOf)).drop 0)).cur_probe_index = _
    rw [hdrop, hdr.1]
  · show (probeStepAux 0 0 chunk (((List.range n).map
        (matchesOf (construct_hash_table bucketOf ((List.range n).map some))
          ((List.range n).map some) bucketOf)).drop 0)).cur_row_match_count = _
    rw [hdrop, hdr.2]
  · rw [hms]
    unfold matchFlagOf
    rw [if_pos]
    apply List.all_eq_true.mpr
    intro x hx
    obtain ⟨i, _, rfl⟩ := List.mem_map.mp hx
    rfl

/-- C5: building a hash table from 4096 build rows with distinct keys
0..4095 — under any key-encoding strategy, via the abstract hash-and-mask
`bucketOf` — and probing it with the same 4096 keys yields exactly 4096
output pairs with `probe_index[i] = i` and `build_index[i] = i + 1` (the
build side is 1-indexed because row 0 is the reserved sentinel), and leaves
the probe state with `match_flag = ALL_MATCH_ONE`, `has_remain = false`,
`cur_probe_index = 0` and `cur_row_match_count = 0`; the output chunk size
is the default `config::vector_chunk_size = 4096`. -/
theorem probe_round_trip_4096 (bucketOf : Nat → Nat) :
    (probe_from_ht (construct_hash_table bucketOf ((List.range 4096).map some))
        ((List.range 4096).map some) bucketOf (List.range 4096) 4096 0 0).pairs
      = (List.range 4096).map (fun i => (i, i + 1)) ∧
    (probe_from_ht (construct_hash_table bucketOf ((List.range 4096).map some))
        ((List.range 4096).map some) bucketOf
        (List.range 4096) 4096 0 0).pairs.length = 4096 ∧
    (probe_from_ht (construct_hash_table bucketOf ((List.range 4096).map some))
        ((List.range 4096).map some) bucketOf
        (List.range 4096) 4096 0 0).has_remain = false ∧
    (probe_from_ht (construct_hash_table bucketOf ((List.range 4096).map some))
        ((List.range 4096).map some) bucketOf
        (List.range 4096) 4096 0 0).cur_probe_index = 0 ∧
    (probe_from_ht (construct_hash_table bucketOf ((List.range 4096).map some))
        ((List.range 4096).map some) bucketOf
        (List.range 4096) 4096 0 0).cur_row_match_count = 0 ∧
    matchFlagOf ((List.range 4096).map
        (matchesOf (construct_hash_table bucketOf ((List.range 4096).map some))
          ((List.range 4096).map some) bucketOf))
      = JoinMatchFlag.ALL_MATCH_ONE :=
  probe_round_trip_general bucketOf 4096 4096 (le_refl 4096)

end StarRocksJoin
